import Mathlib

/-!
Verification development for the resumable copy tool in src/copy_files.py.

The program is shallowly embedded: Python strings (paths) become lists of
characters, the filesystem becomes an explicit map from paths to entries,
the durable failure ledger (diskcache Cache) becomes an association list,
and the per-pair copy loop of cp_ls becomes a state-passing function in a
small hand-rolled state-with-errors monad.  Exceptions raised by the
operating system are modelled by an explicit fault schedule carried in the
state: the n-th effectful primitive of a run raises when n is listed in
the schedule, and primitives also raise deterministically where the real
call would (copying a missing source, cloning attributes of a missing
file, ...).

Line numbers in doc comments refer to src/copy_files.py.
-/

set_option maxHeartbeats 1000000

deriving instance DecidableEq for Except

namespace CopyFiles

/-- Paths (Python strings) are modelled as lists of characters. -/
abbrev Path := List Char

/-- Turns a Lean string literal into a modelled path. -/
def str (s : String) : Path := s.toList

/-! ### fnmatch (shell glob) matching

Model of fnmatch.fnmatchcase as used by exclude_path (line 190):
patterns are matched case-sensitively against the full path, a star
matches any run of characters (including separators), a question mark
matches one character, and bracket classes match one character against a
set of ranges, negated when the class starts with an exclamation mark.
An unterminated bracket is a literal character, as in Python.  The
length bound on the remaining pattern is carried in the return type so
that the matcher terminates structurally on pattern length plus string
length. -/

/-- Parses the body of a bracket class, after the optional negation marker
and the optional leading literal bracket have been consumed.  Returns the
list of character ranges and the remaining pattern after the closing
bracket, or none when the class is unterminated. -/
def parseClassBody :
    (l : List Char) →
    Option (List (Char × Char) × { rest : List Char // rest.length < l.length })
  | [] => none
  | ']' :: rest => some ([], ⟨rest, by simp⟩)
  | c :: '-' :: ']' :: rest =>
    some ([(c, c), ('-', '-')], ⟨rest, by simp only [List.length_cons]; omega⟩)
  | c :: '-' :: d :: rest =>
    match parseClassBody rest with
    | some (rs, ⟨r, hr⟩) =>
      some ((c, d) :: rs, ⟨r, by simp only [List.length_cons]; omega⟩)
    | none => none
  | c :: rest =>
    match parseClassBody rest with
    | some (rs, ⟨r, hr⟩) =>
      some ((c, c) :: rs, ⟨r, by simp only [List.length_cons]; omega⟩)
    | none => none

/-- Parses a full bracket class starting right after the opening bracket:
an optional negation marker, then an optional literal closing bracket as
the first member, then the body. -/
def parseClass (l : List Char) :
    Option (Bool × List (Char × Char) ×
      { rest : List Char // rest.length < l.length }) :=
  match l with
  | '!' :: ']' :: r =>
    match parseClassBody r with
    | some (rs, ⟨rest, h⟩) =>
      some (true, (']', ']') :: rs, ⟨rest, by simp only [List.length_cons]; omega⟩)
    | none => none
  | '!' :: r =>
    match parseClassBody r with
    | some (rs, ⟨rest, h⟩) =>
      some (true, rs, ⟨rest, by simp only [List.length_cons]; omega⟩)
    | none => none
  | ']' :: r =>
    match parseClassBody r with
    | some (rs, ⟨rest, h⟩) =>
      some (false, (']', ']') :: rs, ⟨rest, by simp only [List.length_cons]; omega⟩)
    | none => none
  | r =>
    match parseClassBody r with
    | some (rs, ⟨rest, h⟩) => some (false, rs, ⟨rest, h⟩)
    | none => none

/-- Membership of a character in a parsed class: inside one of the ranges. -/
def inClass (rs : List (Char × Char)) (c : Char) : Bool :=
  rs.any (fun r => decide (r.1 ≤ c) && decide (c ≤ r.2))

/-- The fueled core glob matcher.  Every step consumes at least one unit
of pattern plus string (the bracket case consumes at least the closing
bracket, witnessed by the subtype bound of parseClass), so a fuel of
pattern length plus string length plus one is never exhausted; fuel makes
the function structurally recursive, hence kernel-reducible. -/
def globGo : Nat → List Char → List Char → Bool
  | 0, _, _ => false
  | fuel + 1, p, s =>
    match p, s with
    | [], s => s.isEmpty
    | '*' :: ps, [] => globGo fuel ps []
    | '*' :: ps, c :: cs => globGo fuel ps (c :: cs) || globGo fuel ('*' :: ps) cs
    | '?' :: ps, _ :: cs => globGo fuel ps cs
    | '?' :: _, [] => false
    | '[' :: ps, s =>
      (match parseClass ps with
       | some (neg, rs, ⟨pr, _⟩) =>
         (match s with
          | [] => false
          | c :: cs => ((inClass rs c) != neg) && globGo fuel pr cs)
       | none =>
         (match s with
          | '[' :: cs => globGo fuel ps cs
          | _ => false))
    | p :: ps, c :: cs => (p == c) && globGo fuel ps cs
    | _ :: _, [] => false

/-- Glob matching of a string against a pattern. -/
def globMatch (p s : List Char) : Bool := globGo (p.length + s.length + 1) p s

/-- fnmatch.fnmatchcase: case-sensitive glob match of a name against a
pattern. -/
def fnmatchcase (name pat : Path) : Bool := globMatch pat name

/-- Lines 184-192: returns true when the path matches one of the
exclusion wildcard patterns. -/
def exclude_path (path : Path) (exclusions : List Path) : Bool :=
  exclusions.any (fun pat => fnmatchcase path pat)

/-! ### os.path helpers -/

/-- Whether a path ends in a separator. -/
def endsWithSlash (p : Path) : Bool :=
  match p.getLast? with
  | some '/' => true
  | _ => false

/-- Whether a path starts with a separator (the startswith check on
line 206). -/
def startsWithSlash (p : Path) : Bool :=
  match p with
  | '/' :: _ => true
  | _ => false

/-- posixpath.join restricted to two components: an absolute second
component discards the first, otherwise the two are joined with a
separator unless the first already ends in one or is empty. -/
def joinPath (a b : Path) : Path :=
  if startsWithSlash b then b
  else if a.isEmpty || endsWithSlash a then a ++ b
  else a ++ '/' :: b

/-- posixpath.dirname: everything before the final separator; a head
made only of separators is kept as is, otherwise trailing separators are
stripped from it. -/
def dirnameP (p : Path) : Path :=
  match (p.reverse).findIdx? (fun c => c == '/') with
  | none => []
  | some i =>
    let head := p.take (p.length - i)
    if head.all (fun c => c == '/') then head
    else (head.reverse.dropWhile (fun c => c == '/')).reverse

/-! ### change_parent (lines 195-208)

Python dispatches on the dynamic type of the third argument; the two
branches are modelled as two functions.  Note that only the list branch
strips a leading separator from the stripped remainder before joining. -/

/-- Lines 200-201: the single-string branch of change_parent.  The
remainder keeps its leading separator, so os.path.join treats it as
absolute and discards the new parent. -/
def change_parent_str (old new paths : Path) : Path :=
  joinPath new (paths.drop old.length)

/-- Lines 202-208: the list branch of change_parent: strip the old
parent by character count, drop one leading separator, join under the
new parent. -/
def change_parent_list (old new : Path) (paths : List Path) : List Path :=
  paths.map (fun path =>
    let stripped := path.drop old.length
    let stripped := if startsWithSlash stripped then stripped.drop 1 else stripped
    joinPath new stripped)

/-! ### PathSet Enumerator: ls_dir (lines 152-181)

os.walk is modelled over an explicit directory tree.  A tree node lists
its immediate subdirectories (name and subtree, in listing order) and its
immediate file names.  walk produces the topdown sequence of
(root, dirnames, filenames) triples exactly as os.walk does; note that
ls_dir never modifies the dirnames list in place, so os.walk descends
into every directory, including excluded ones. -/

/-- The directory tree seen by os.walk. -/
inductive FTree where
  | node (dirs : List (Path × FTree)) (files : List Path)

mutual

/-- The topdown (root, dirnames, filenames) sequence of os.walk. -/
def walk (base : Path) : FTree → List (Path × List Path × List Path)
  | FTree.node dirs files =>
    (base, dirs.map Prod.fst, files) :: walkList base dirs

/-- walk, mapped over a list of named subtrees in listing order. -/
def walkList (base : Path) : List (Path × FTree) → List (Path × List Path × List Path)
  | [] => []
  | (name, sub) :: rest => walk (joinPath base name) sub ++ walkList base rest

end

/-- The elements of ls that survive exclusion filtering, as full paths
under root, in listing order. -/
def keptUnder (exclusions : List Path) (root : Path) (ls : List Path) : List Path :=
  ls.filterMap (fun cur =>
    let p := joinPath root cur
    if exclude_path p exclusions then none else some p)

/-- Lines 155-165: appends to res_ls the full path of every element of
ls that does not match an exclusion pattern. -/
def check_exclusions (exclusions : List Path) (root : Path) (ls : List Path)
    (res_ls : List Path) : List Path :=
  res_ls ++ keptUnder exclusions root ls

/-- One iteration of the walk loop of ls_dir (lines 171-179): an excluded
root is skipped entirely, otherwise its dirnames and filenames are
filtered into the two accumulators. -/
def lsDirStep (exclusions : List Path) (acc : List Path × List Path)
    (rdf : Path × List Path × List Path) : List Path × List Path :=
  if exclude_path rdf.1 exclusions then acc
  else (check_exclusions exclusions rdf.1 rdf.2.1 acc.1,
        check_exclusions exclusions rdf.1 rdf.2.2 acc.2)

/-- Lines 152-181: returns the accumulated (directories, files) lists of
the whole walk. -/
def ls_dir (dir_path : Path) (t : FTree) (exclusions : List Path) :
    List Path × List Path :=
  (walk dir_path t).foldl (lsDirStep exclusions) ([], [])

/-- Unfolding one step of the ls_dir fold: the accumulators only ever
grow by appending, with one batch per non-excluded walk root. -/
theorem foldl_lsDirStep (ex : List Path) :
    ∀ (L : List (Path × List Path × List Path)) (acc : List Path × List Path),
      (L.foldl (lsDirStep ex) acc).1
          = acc.1 ++ L.flatMap (fun rdf =>
              if exclude_path rdf.1 ex then [] else keptUnder ex rdf.1 rdf.2.1)
      ∧ (L.foldl (lsDirStep ex) acc).2
          = acc.2 ++ L.flatMap (fun rdf =>
              if exclude_path rdf.1 ex then [] else keptUnder ex rdf.1 rdf.2.2) := by
  intro L
  induction L with
  | nil => intro acc; simp
  | cons hd tl ih =>
    intro acc
    simp only [List.foldl_cons, List.flatMap_cons]
    rcases hx : exclude_path hd.1 ex with _ | _
    · have := ih (lsDirStep ex acc hd)
      simp only [lsDirStep, hx, if_neg, Bool.false_eq_true, if_false, check_exclusions] at this ⊢
      rw [this.1, this.2]
      simp [List.append_assoc]
    · have := ih (lsDirStep ex acc hd)
      simp only [lsDirStep, hx, if_true] at this ⊢
      rw [this.1, this.2]
      simp

/-- Concrete tree for the C1 counterexample: a directory E containing a
subdirectory sub containing one file f. -/
def subtreeTree : FTree :=
  FTree.node [(str "E", FTree.node [(str "sub", FTree.node [] [str "f"])] [])] []

/-- C1 (counterexample): with root /a and the single exclusion pattern
/a/E, the directory /a/E matches the pattern, yet ls_dir still returns
the file /a/E/sub/f, which lies inside the excluded directory's subtree
— the claim that the entire subtree of an excluded directory is omitted
is false on the code, because ls_dir never prunes the dirnames list that
os.walk uses for descending. -/
theorem ls_dir_subtree_counterexample :
    exclude_path (str "/a/E") [str "/a/E"] = true
    ∧ ls_dir (str "/a") subtreeTree [str "/a/E"] = ([], [str "/a/E/sub/f"])
    ∧ str "/a/E/sub/f" = str "/a/E" ++ str "/sub/f" := by decide

/-- C1 (amended): ls_dir returns the directories and files in walk
(traversal) order, omitting every entry whose own full path matches a
pattern and every entry listed under a walk root whose path matches a
pattern; deeper descendants of an excluded directory are still returned
whenever neither their own path nor their parent root path matches.  In
particular no returned path ever matches an exclusion pattern. -/
theorem ls_dir_exclusion :
    ∀ (base : Path) (t : FTree) (ex : List Path),
      ((ls_dir base t ex).1
          = (walk base t).flatMap (fun rdf =>
              if exclude_path rdf.1 ex then [] else keptUnder ex rdf.1 rdf.2.1)
       ∧ (ls_dir base t ex).2
          = (walk base t).flatMap (fun rdf =>
              if exclude_path rdf.1 ex then [] else keptUnder ex rdf.1 rdf.2.2))
      ∧ (∀ p, p ∈ (ls_dir base t ex).1 → exclude_path p ex = false)
      ∧ (∀ p, p ∈ (ls_dir base t ex).2 → exclude_path p ex = false) := by
  intro base t ex
  have hchar := foldl_lsDirStep ex (walk base t) ([], [])
  simp only [ls_dir, List.nil_append] at hchar ⊢
  refine ⟨⟨hchar.1, hchar.2⟩, ?_, ?_⟩
  · intro p hp
    rw [hchar.1] at hp
    rcases List.mem_flatMap.mp hp with ⟨rdf, _, hmem⟩
    rcases hx : exclude_path rdf.1 ex with _ | _
    · rw [hx] at hmem
      simp only [Bool.false_eq_true, if_false, keptUnder, List.mem_filterMap] at hmem
      rcases hmem with ⟨cur, _, hsome⟩
      by_cases h2 : exclude_path (joinPath rdf.1 cur) ex = true
      · simp [h2] at hsome
      · simp only [Bool.not_eq_true] at h2
        simp only [h2, Bool.false_eq_true, if_false, Option.some.injEq] at hsome
        rw [← hsome]; exact h2
    · rw [hx] at hmem; simp at hmem
  · intro p hp
    rw [hchar.2] at hp
    rcases List.mem_flatMap.mp hp with ⟨rdf, _, hmem⟩
    rcases hx : exclude_path rdf.1 ex with _ | _
    · rw [hx] at hmem
      simp only [Bool.false_eq_true, if_false, keptUnder, List.mem_filterMap] at hmem
      rcases hmem with ⟨cur, _, hsome⟩
      by_cases h2 : exclude_path (joinPath rdf.1 cur) ex = true
      · simp [h2] at hsome
      · simp only [Bool.not_eq_true] at h2
        simp only [h2, Bool.false_eq_true, if_false, Option.some.injEq] at hsome
        rw [← hsome]; exact h2
    · rw [hx] at hmem; simp at hmem

/-- C4 (counterexample): with old parent /a and new parent /b, the path
/a/x is remapped to /b/x by the list branch of change_parent but to /x
by the single-string branch (whose un-stripped remainder /x is absolute,
so os.path.join discards /b) — the two branches do not behave the same,
and the single-string branch does not rejoin under the new root. -/
theorem change_parent_uniformity_counterexample :
    change_parent_str (str "/a") (str "/b") (str "/a/x") = str "/x"
    ∧ change_parent_list (str "/a") (str "/b") [str "/a/x"] = [str "/b/x"]
    ∧ str "/x" ≠ str "/b/x" := by decide

/-- C4 (amended): the list branch of change_parent applies one fixed
element transformation uniformly, preserving order and length; on a path
of the form old ++ / ++ rest (rest not itself starting with a separator)
that transformation is exactly strip-the-old-root-and-rejoin-under-new,
while the single-string branch instead returns the remainder with its
leading separator, discarding the new root. -/
theorem change_parent_list_remap :
    ∀ (old new rest : Path) (ps : List Path),
      (change_parent_list old new ps).length = ps.length
      ∧ (∀ p ps2, change_parent_list old new (p :: ps2)
            = change_parent_list old new [p] ++ change_parent_list old new ps2)
      ∧ (startsWithSlash rest = false →
          change_parent_list old new [old ++ '/' :: rest] = [joinPath new rest]
          ∧ change_parent_str old new (old ++ '/' :: rest) = '/' :: rest) := by
  intro old new rest ps
  refine ⟨by simp [change_parent_list], by intro p ps2; simp [change_parent_list], ?_⟩
  intro hrest
  have hdrop : (old ++ '/' :: rest).drop old.length = '/' :: rest :=
    List.drop_left old ('/' :: rest)
  constructor
  · simp only [change_parent_list, List.map_cons, List.map_nil, hdrop]
    simp [startsWithSlash]
  · simp only [change_parent_str, hdrop]
    simp [joinPath, startsWithSlash]

/-- Witness for the amended C4 theorem at a concrete input. -/
theorem change_parent_list_remap_witness :
    change_parent_list (str "/a") (str "/b") [str "/a" ++ '/' :: str "x"]
        = [joinPath (str "/b") (str "x")]
    ∧ change_parent_str (str "/a") (str "/b") (str "/a" ++ '/' :: str "x")
        = '/' :: str "x" :=
  (change_parent_list_remap (str "/a") (str "/b") (str "x") []).2.2 (by decide)

/-! ### Filesystem model and the Comparator cmp (lines 70-94)

A filesystem maps a path to its lstat entry: a regular file (content as
a list of byte values, plus a modification time), a directory (its
listing of child names), or a symbolic link (its target, taken to be an
absolute path).  os.path.isfile, isdir and exists follow symlink chains;
resolution carries fuel matching the OS symlink-loop bound, and
exhausted fuel models ELOOP, on which those predicates return False just
as in Python.  Sizes are content lengths.  Directory modification times
are not modelled; no claim depends on them. -/

/-- One filesystem entry as seen by lstat. -/
inductive Entry where
  | file (content : List Nat) (mtime : Nat)
  | dir (listing : List Path)
  | symlink (target : Path)
deriving DecidableEq

/-- The filesystem: lstat result per path, none when the path is absent. -/
abbrev FS := Path → Option Entry

/-- Symlink-chain resolution fuel (the OS loop bound). -/
def FUEL : Nat := 40

/-- Follows symlink chains; none models a missing path or ELOOP. -/
def resolveEntry (fs : FS) : Nat → Path → Option Entry
  | 0, _ => none
  | fuel + 1, p =>
    match fs p with
    | some (Entry.symlink t) => resolveEntry fs fuel t
    | e => e

/-- os.path.islink: the lstat entry is a symlink. -/
def islink (fs : FS) (p : Path) : Bool :=
  match fs p with
  | some (Entry.symlink _) => true
  | _ => false

/-- os.path.isfile: resolves (following symlinks) to a regular file. -/
def isfile (fs : FS) (p : Path) : Bool :=
  match resolveEntry fs FUEL p with
  | some (Entry.file _ _) => true
  | _ => false

/-- os.path.isdir: resolves (following symlinks) to a directory. -/
def isdir (fs : FS) (p : Path) : Bool :=
  match resolveEntry fs FUEL p with
  | some (Entry.dir _) => true
  | _ => false

/-- os.path.exists: resolves to some entry (false for dangling links). -/
def pathExists (fs : FS) (p : Path) : Bool :=
  (resolveEntry fs FUEL p).isSome

/-- Lines 70-76: applies an os.path predicate to each path and combines
the results with cmp_func (all by default, any at the line 241 call). -/
def paths_are (os_path_func : Path → Bool) (ps : List Path)
    (cmp_func : List Bool → Bool) : Bool :=
  cmp_func (ps.map os_path_func)

/-- The default cmp_func of paths_are: all results true. -/
def allF (l : List Bool) : Bool := l.all id

/-- The cmp_func used by check_meta_ls: any result true. -/
def anyF (l : List Bool) : Bool := l.any id

/-- filecmp.cmp on the stat data of two regular files: under shallow
comparison equal signatures (size and mtime) decide equality at once;
otherwise unequal sizes decide inequality and equal sizes fall back to a
byte-by-byte comparison. -/
def filecmpFiles (shallow : Bool) (c1 : List Nat) (m1 : Nat)
    (c2 : List Nat) (m2 : Nat) : Bool :=
  if shallow && (c1.length == c2.length) && (m1 == m2) then true
  else if c1.length != c2.length then false
  else c1 == c2

/-- os.readlink, raising (modelled by Except.error) on a non-symlink. -/
def readlinkE (fs : FS) (p : Path) : Except String Path :=
  match fs p with
  | some (Entry.symlink t) => Except.ok t
  | _ => Except.error "readlink"

/-- filecmp.cmp: os.stat raises on a missing path (or ELOOP), a
non-regular resolved entry compares unequal, two regular files compare
by signature or content. -/
def filecmpE (fs : FS) (shallow : Bool) (a b : Path) : Except String Bool :=
  match resolveEntry fs FUEL a, resolveEntry fs FUEL b with
  | some ea, some eb =>
    (match ea, eb with
     | Entry.file c1 m1, Entry.file c2 m2 => Except.ok (filecmpFiles shallow c1 m1 c2 m2)
     | _, _ => Except.ok false)
  | _, _ => Except.error "stat"

/-- The default name ignore list of filecmp.dircmp. -/
def DEFAULT_IGNORES : List Path :=
  [str "RCS", str "CVS", str "tags", str ".git", str ".hg", str ".bzr",
   str "_darcs", str "__pycache__"]

/-- A common child name whose two sides both resolve to regular files is
compared shallowly (dircmp compares common files with shallow
signatures); any other kind combination lands in common_dirs or
common_funny, which dircmp does not flag. -/
def commonChildOk (fs : FS) (a b n : Path) : Bool :=
  match resolveEntry fs FUEL (joinPath a n), resolveEntry fs FUEL (joinPath b n) with
  | some (Entry.file c1 m1), some (Entry.file c2 m2) => filecmpFiles true c1 m1 c2 m2
  | _, _ => true

/-- The line 92 verdict on a filecmp.dircmp object: no names unique to
either side and no differing common files (after dropping the default
ignore list from both listings). -/
def dircmpOk (fs : FS) (a b : Path) (la lb : List Path) : Bool :=
  let fa := la.filter (fun n => !(DEFAULT_IGNORES.contains n))
  let fb := lb.filter (fun n => !(DEFAULT_IGNORES.contains n))
  fa.all (fun n => fb.contains n)
  && fb.all (fun n => fa.contains n)
  && fa.all (fun n => !(fb.contains n) || commonChildOk fs a b n)

/-- filecmp.dircmp attribute access: os.listdir raises unless the path
resolves to a directory. -/
def dircmpE (fs : FS) (a b : Path) : Except String Bool :=
  match resolveEntry fs FUEL a, resolveEntry fs FUEL b with
  | some (Entry.dir la), some (Entry.dir lb) => Except.ok (dircmpOk fs a b la lb)
  | _, _ => Except.error "listdir"

/-- Lines 79-94: the Comparator.  Two symlinks compare by target, two
(resolved) files by filecmp.cmp with the given shallow flag, two
(resolved) directories by the dircmp verdict, anything else is False. -/
def cmp (fs : FS) (src dst : Path) (shallow : Bool) : Except String Bool :=
  if paths_are (islink fs) [src, dst] allF then
    match readlinkE fs src, readlinkE fs dst with
    | Except.ok ta, Except.ok tb => Except.ok (ta == tb)
    | Except.error e, _ => Except.error e
    | _, Except.error e => Except.error e
  else if paths_are (isfile fs) [src, dst] allF then
    filecmpE fs shallow src dst
  else if paths_are (isdir fs) [src, dst] allF then
    dircmpE fs src dst
  else Except.ok false

/-- Boolean equality tests commute for lawful instances. -/
theorem beqSymm {α : Type _} [BEq α] [LawfulBEq α] (a b : α) : (a == b) = (b == a) := by
  by_cases h : a = b
  · subst h; rfl
  · rw [beq_eq_false_iff_ne.mpr h, beq_eq_false_iff_ne.mpr (Ne.symm h)]

/-- Two booleans agreeing as propositions are equal. -/
theorem boolExt {a b : Bool} (h : a = true ↔ b = true) : a = b := by
  cases a <;> cases b <;> simp_all

/-- The two-path all-of guard of cmp, componentwise. -/
theorem paths_are_all_two {f : Path → Bool} {a b : Path}
    (h : paths_are f [a, b] allF = true) : f a = true ∧ f b = true := by
  simp only [paths_are, allF, List.map_cons, List.map_nil, List.all_cons,
    List.all_nil, Bool.and_true, id, Bool.and_eq_true] at h
  exact h

/-- The two-path all-of guard of cmp commutes. -/
theorem paths_are_two_comm (f : Path → Bool) (a b : Path) :
    paths_are f [a, b] allF = paths_are f [b, a] allF := by
  simp only [paths_are, allF, List.map_cons, List.map_nil, List.all_cons,
    List.all_nil, Bool.and_true, id]
  rw [Bool.and_comm]

/-- An islink verdict exposes the symlink entry. -/
theorem islink_some {fs : FS} {p : Path} (h : islink fs p = true) :
    ∃ t, fs p = some (Entry.symlink t) := by
  unfold islink at h
  match hfp : fs p with
  | some (Entry.symlink t) => exact ⟨t, rfl⟩
  | some (Entry.file c m) => rw [hfp] at h; simp at h
  | some (Entry.dir l) => rw [hfp] at h; simp at h
  | none => rw [hfp] at h; simp at h

/-- The file comparison verdict is symmetric. -/
theorem filecmpFiles_symm (sh : Bool) (c1 : List Nat) (m1 : Nat)
    (c2 : List Nat) (m2 : Nat) :
    filecmpFiles sh c1 m1 c2 m2 = filecmpFiles sh c2 m2 c1 m1 := by
  simp only [filecmpFiles, bne, beqSymm c2.length c1.length, beqSymm m2 m1,
    beqSymm c2 c1]

/-- The stat-based file comparison is symmetric, errors included. -/
theorem filecmpE_symm (fs : FS) (sh : Bool) (a b : Path) :
    filecmpE fs sh a b = filecmpE fs sh b a := by
  simp only [filecmpE]
  generalize resolveEntry fs FUEL a = ra
  generalize resolveEntry fs FUEL b = rb
  cases ra with
  | none => cases rb <;> rfl
  | some ea =>
    cases rb with
    | none => rfl
    | some eb => cases ea <;> cases eb <;> simp [filecmpFiles_symm]

/-- The common-child verdict used by the dircmp model is symmetric. -/
theorem commonChildOk_symm (fs : FS) (a b n : Path) :
    commonChildOk fs a b n = commonChildOk fs b a n := by
  simp only [commonChildOk]
  generalize resolveEntry fs FUEL (joinPath a n) = ra
  generalize resolveEntry fs FUEL (joinPath b n) = rb
  cases ra with
  | none =>
    cases rb with
    | none => rfl
    | some eb => cases eb <;> rfl
  | some ea =>
    cases rb with
    | none => cases ea <;> rfl
    | some eb => cases ea <;> cases eb <;> simp [filecmpFiles_symm]

/-- The dircmp verdict is symmetric. -/
theorem dircmpOk_symm (fs : FS) (a b : Path) (la lb : List Path) :
    dircmpOk fs a b la lb = dircmpOk fs b a lb la := by
  simp only [dircmpOk, commonChildOk_symm fs a b]
  apply boolExt
  have himp : ∀ (x y : Bool), ((!x || y) = true) ↔ (x = true → y = true) := by
    intro x y; cases x <;> cases y <;> simp
  simp only [Bool.and_eq_true, List.all_eq_true, himp, List.elem_iff]
  constructor
  · rintro ⟨⟨hab, hba⟩, hk⟩
    exact ⟨⟨hba, hab⟩, fun n hn hm => hk n hm hn⟩
  · rintro ⟨⟨hba, hab⟩, hk⟩
    exact ⟨⟨hab, hba⟩, fun n hn hm => hk n hm hn⟩

/-- The directory comparison is symmetric, errors included. -/
theorem dircmpE_symm (fs : FS) (a b : Path) :
    dircmpE fs a b = dircmpE fs b a := by
  simp only [dircmpE]
  generalize hra : resolveEntry fs FUEL a = ra
  generalize hrb : resolveEntry fs FUEL b = rb
  cases ra with
  | none =>
    cases rb with
    | none => rfl
    | some eb => cases eb <;> rfl
  | some ea =>
    cases rb with
    | none => cases ea <;> rfl
    | some eb => cases ea <;> cases eb <;> simp [dircmpOk_symm]

/-- C8: the Comparator is symmetric — for every filesystem, every pair of
paths of any symlink, file, directory (or missing) combination and either
comparison depth, cmp(x, y, shallow) = cmp(y, x, shallow), including the
raising cases, which raise identically on both orders. -/
theorem cmp_symmetric :
    ∀ (fs : FS) (x y : Path) (shallow : Bool),
      cmp fs x y shallow = cmp fs y x shallow := by
  intro fs x y sh
  simp only [cmp]
  rw [paths_are_two_comm (islink fs) x y, paths_are_two_comm (isfile fs) x y,
    paths_are_two_comm (isdir fs) x y]
  by_cases h1 : paths_are (islink fs) [y, x] allF = true
  · simp only [h1, if_true]
    obtain ⟨hly, hlx⟩ := paths_are_all_two h1
    obtain ⟨tx, hfx⟩ := islink_some hlx
    obtain ⟨ty, hfy⟩ := islink_some hly
    simp only [readlinkE, hfx, hfy]
    rw [beqSymm tx ty]
  · simp only [h1, Bool.false_eq_true, if_false]
    by_cases h2 : paths_are (isfile fs) [y, x] allF = true
    · simp only [h2, if_true]
      exact filecmpE_symm fs sh x y
    · simp only [h2, Bool.false_eq_true, if_false]
      by_cases h3 : paths_are (isdir fs) [y, x] allF = true
      · simp only [h3, if_true]
        exact dircmpE_symm fs x y
      · simp only [h3, Bool.false_eq_true, if_false]

/-- C10: whenever the two paths are neither both symlinks, nor both
resolving to regular files, nor both resolving to directories — in
particular when either path is missing — cmp returns ok false: the
fall-through answer, with no error raised. -/
theorem cmp_mismatch_no_raise :
    ∀ (fs : FS) (src dst : Path) (shallow : Bool),
      paths_are (islink fs) [src, dst] allF = false →
      paths_are (isfile fs) [src, dst] allF = false →
      paths_are (isdir fs) [src, dst] allF = false →
      cmp fs src dst shallow = Except.ok false := by
  intro fs src dst sh h1 h2 h3
  simp [cmp, h1, h2, h3]

/-- The empty filesystem, for the C10 witness. -/
def emptyFS : FS := fun _ => none

/-- Witness for C10 at a concrete input: two missing paths. -/
theorem cmp_mismatch_no_raise_witness :
    cmp emptyFS (str "/a") (str "/b") false = Except.ok false :=
  cmp_mismatch_no_raise emptyFS (str "/a") (str "/b") false
    (by decide) (by decide) (by decide)

/-- Entry kinds as the claim about kind mismatches speaks of them. -/
inductive EKind where
  | fileK
  | dirK
  | linkK
deriving DecidableEq

/-- The kind of an lstat entry. -/
def entryKind : Entry → EKind
  | Entry.file _ _ => EKind.fileK
  | Entry.dir _ => EKind.dirK
  | Entry.symlink _ => EKind.linkK

/-- The kind of a path after following symlinks (never linkK). -/
def resolvedKind (fs : FS) (p : Path) : Option EKind :=
  (resolveEntry fs FUEL p).map entryKind

/-- Concrete filesystem for C5: /l is a symlink to the regular file /t,
and /b is a regular file with the same content; /d is a directory. -/
def mixedFS : FS := fun p =>
  if p = str "/l" then some (Entry.symlink (str "/t"))
  else if p = str "/t" then some (Entry.file [1, 2] 5)
  else if p = str "/b" then some (Entry.file [1, 2] 7)
  else if p = str "/d" then some (Entry.dir [])
  else none

/-- C5 (counterexample): /l is a symlink and /b a regular file — their
filesystem-entry kinds differ — yet cmp reports them equivalent, because
the isfile guard follows the symlink and the byte comparison sees equal
content.  The claim that every kind mismatch is non-equivalent is false
on the code. -/
theorem cmp_kind_mismatch_counterexample :
    mixedFS (str "/l") = some (Entry.symlink (str "/t"))
    ∧ mixedFS (str "/b") = some (Entry.file [1, 2] 7)
    ∧ Option.map entryKind (mixedFS (str "/l"))
        ≠ Option.map entryKind (mixedFS (str "/b"))
    ∧ cmp mixedFS (str "/l") (str "/b") false = Except.ok true := by decide

/-- An isfile verdict determines the resolved kind. -/
theorem isfile_resolvedKind {fs : FS} {p : Path} (h : isfile fs p = true) :
    resolvedKind fs p = some EKind.fileK := by
  unfold isfile at h
  unfold resolvedKind
  match hr : resolveEntry fs FUEL p with
  | some (Entry.file c m) => simp [entryKind]
  | some (Entry.dir l) => rw [hr] at h; simp at h
  | some (Entry.symlink t) => rw [hr] at h; simp at h
  | none => rw [hr] at h; simp at h

/-- An isdir verdict determines the resolved kind. -/
theorem isdir_resolvedKind {fs : FS} {p : Path} (h : isdir fs p = true) :
    resolvedKind fs p = some EKind.dirK := by
  unfold isdir at h
  unfold resolvedKind
  match hr : resolveEntry fs FUEL p with
  | some (Entry.dir l) => simp [entryKind]
  | some (Entry.file c m) => rw [hr] at h; simp at h
  | some (Entry.symlink t) => rw [hr] at h; simp at h
  | none => rw [hr] at h; simp at h

/-- C5 (amended): cmp reports non-equivalence whenever the kinds of the
two paths differ after following symlinks — one resolves to a regular
file while the other does not, or one resolves to a directory while the
other does not, or one resolves and the other is missing.  (A symlink
paired with a non-symlink is compared as the entry it resolves to, so a
symlink to a file paired with an identical regular file is equivalent,
per the counterexample.) -/
theorem cmp_resolved_kind_mismatch :
    ∀ (fs : FS) (x y : Path) (shallow : Bool),
      resolvedKind fs x ≠ resolvedKind fs y →
      cmp fs x y shallow = Except.ok false := by
  intro fs x y sh hne
  simp only [cmp]
  by_cases h1 : paths_are (islink fs) [x, y] allF = true
  · simp only [h1, if_true]
    obtain ⟨hlx, hly⟩ := paths_are_all_two h1
    obtain ⟨tx, hfx⟩ := islink_some hlx
    obtain ⟨ty, hfy⟩ := islink_some hly
    simp only [readlinkE, hfx, hfy]
    have htne : tx ≠ ty := by
      intro heq
      apply hne
      unfold resolvedKind
      rw [show FUEL = 39 + 1 from rfl]
      simp only [resolveEntry, hfx, hfy, heq]
    rw [beq_eq_false_iff_ne.mpr htne]
  · simp only [h1, Bool.false_eq_true, if_false]
    by_cases h2 : paths_are (isfile fs) [x, y] allF = true
    · exfalso
      obtain ⟨hfx, hfy⟩ := paths_are_all_two h2
      exact hne ((isfile_resolvedKind hfx).trans (isfile_resolvedKind hfy).symm)
    · simp only [h2, Bool.false_eq_true, if_false]
      by_cases h3 : paths_are (isdir fs) [x, y] allF = true
      · exfalso
        obtain ⟨hdx, hdy⟩ := paths_are_all_two h3
        exact hne ((isdir_resolvedKind hdx).trans (isdir_resolvedKind hdy).symm)
      · simp only [h3, Bool.false_eq_true, if_false]

/-- Witness for the amended C5 theorem: a file paired with a directory. -/
theorem cmp_resolved_kind_mismatch_witness :
    cmp mixedFS (str "/t") (str "/d") true = Except.ok false :=
  cmp_resolved_kind_mismatch mixedFS (str "/t") (str "/d") true (by decide)

/-! ### The Failure Ledger and the Copy Engine state

The diskcache Cache keyed by source path becomes an association list
(get, set, delete, iterate-keys); iteration order is the list order,
abstracting the sorted key order of diskcache, on which no claim
depends.  The stored record keeps the fields the program reads back
(src, dst, attempts); the exception and traceback strings of lines
140-141 carry no behaviour and are elided. -/

/-- A ledger record: {'src': ..., 'dst': ..., 'attempts': ...}. -/
structure ErrRec where
  src : Path
  dst : Path
  attempts : Nat
deriving DecidableEq

/-- The ledger. -/
abbrev Cache := List (Path × ErrRec)

/-- prog_cache.get: the record stored under the first matching key. -/
def cacheGet : Cache → Path → Option ErrRec
  | [], _ => none
  | (k', v') :: rest, k => if k' == k then some v' else cacheGet rest k

/-- prog_cache.set: replace in place or append. -/
def cacheSet : Cache → Path → ErrRec → Cache
  | [], k, v => [(k, v)]
  | (k', v') :: rest, k, v =>
    if k' == k then (k', v) :: rest else (k', v') :: cacheSet rest k v

/-- prog_cache.delete. -/
def cacheDelete (c : Cache) (k : Path) : Cache :=
  c.filter (fun kv => !(kv.1 == k))

/-- prog_cache.iterkeys. -/
def cacheKeys (c : Cache) : List Path := c.map Prod.fst

/-- The effectful primitives whose invocations are recorded: os.unlink,
os.makedirs, the bulk-copy primitive cp (lines 25-28), and clone_attrs. -/
inductive Op where
  | unlinkOp (p : Path)
  | makedirsOp (p : Path)
  | cpOp (src dst : Path)
  | cloneOp (src dst : Path)
deriving DecidableEq

/-- The run state: the filesystem, the ledger, a clock counting effectful
primitives, the fault schedule (clock values at which the next primitive
raises, modelling OS-level exceptions), and the trace of attempted
primitive invocations. -/
structure St where
  fs : FS
  cache : Cache
  clock : Nat
  faults : List Nat
  trace : List Op

/-- State-passing computations that can raise but keep the state they
reached (a Python exception does not roll effects back). -/
def M (α : Type) := St → Except String α × St

instance : Monad M where
  pure a := fun s => (Except.ok a, s)
  bind x f := fun s =>
    match x s with
    | (Except.ok a, s') => f a s'
    | (Except.error e, s') => (Except.error e, s')

/-- Unfolding bind application. -/
theorem bindM_eq {α β : Type} (x : M α) (f : α → M β) (s : St) :
    (x >>= f) s
      = match x s with
        | (Except.ok a, s') => f a s'
        | (Except.error e, s') => (Except.error e, s') := rfl

/-- Unfolding pure application. -/
theorem pureM_eq {α : Type} (a : α) (s : St) :
    (pure a : M α) s = (Except.ok a, s) := rfl

/-- Point update of the filesystem. -/
def fsSet (fs : FS) (p : Path) (e : Entry) : FS :=
  fun q => if q = p then some e else fs q

/-- Point removal from the filesystem. -/
def fsRemove (fs : FS) (p : Path) : FS :=
  fun q => if q = p then none else fs q

/-- Reads are effect-free. -/
def islinkM (p : Path) : M Bool := fun s => (Except.ok (islink s.fs p), s)

/-- os.path.isfile as a state read. -/
def isfileM (p : Path) : M Bool := fun s => (Except.ok (isfile s.fs p), s)

/-- os.path.isdir as a state read. -/
def isdirM (p : Path) : M Bool := fun s => (Except.ok (isdir s.fs p), s)

/-- os.path.exists as a state read. -/
def existsM (p : Path) : M Bool := fun s => (Except.ok (pathExists s.fs p), s)

/-- cmp as a state read whose comparison errors propagate as exceptions. -/
def cmpM (src dst : Path) (shallow : Bool) : M Bool :=
  fun s => (cmp s.fs src dst shallow, s)

/-- prog_cache.delete inside the loop: the durable store is reliable. -/
def cacheDelM (k : Path) : M Unit :=
  fun s => (Except.ok (), { s with cache := cacheDelete s.cache k })

/-- Runs one effectful primitive: the invocation is always recorded and
the clock advances; the primitive raises when the fault schedule lists
the current clock value, and otherwise performs its action, which may
itself raise deterministically. -/
def prim (op : Op) (act : St → Except String St) : M Unit := fun s =>
  let s1 : St := { s with trace := s.trace ++ [op], clock := s.clock + 1 }
  if s.faults.contains s.clock then (Except.error "fault", s1)
  else
    match act s1 with
    | Except.ok s2 => (Except.ok (), s2)
    | Except.error e => (Except.error e, s1)

/-- os.unlink: removes a file or symlink entry; raises on a directory or
a missing path. -/
def unlinkAct (p : Path) (s : St) : Except String St :=
  match s.fs p with
  | some (Entry.file _ _) => Except.ok { s with fs := fsRemove s.fs p }
  | some (Entry.symlink _) => Except.ok { s with fs := fsRemove s.fs p }
  | some (Entry.dir _) => Except.error "unlink dir"
  | none => Except.error "unlink missing"

/-- os.makedirs(..., exist_ok=True): a path already resolving to a
directory is fine, a path present as anything else raises, an absent
path gets a fresh directory entry (intermediate parents elided; no claim
depends on them). -/
def makedirsAct (p : Path) (s : St) : Except String St :=
  if isdir s.fs p then Except.ok s
  else
    match s.fs p with
    | some _ => Except.error "makedirs exists"
    | none => Except.ok { s with fs := fsSet s.fs p (Entry.dir []) }

/-- Lines 25-28, /bin/cp -Rpn src dirname(dst): raises when the source
is missing; the no-clobber flag makes an existing destination a silent
success (BSD cp exit 0); otherwise the lstat entry of the source is
copied to dst (every call site passes a dst whose basename is that of
src). -/
def cpAct (src dst : Path) (s : St) : Except String St :=
  match s.fs src with
  | none => Except.error "cp missing"
  | some e =>
    match s.fs dst with
    | some _ => Except.ok s
    | none => Except.ok { s with fs := fsSet s.fs dst e }

/-- Lines 31-67, clone_attrs, reduced to its observable effect on the
modelled attribute set: for two regular files the destination mtime is
set to the source value, after the equality check of lines 48-51 (no
write when equal); combinations involving directories or symlinks carry
no modelled attributes and succeed without effect; a missing path makes
the attribute read raise.  The verify-retry loop and the follow flag
make no observable difference in this model (both branches read lstat
attributes), so the flag is kept but unused. -/
def cloneAct (src dst : Path) (_follow : Bool) (s : St) : Except String St :=
  match s.fs src, s.fs dst with
  | some (Entry.file _ msrc), some (Entry.file cdst mdst) =>
    if msrc = mdst then Except.ok s
    else Except.ok { s with fs := fsSet s.fs dst (Entry.file cdst msrc) }
  | some _, some _ => Except.ok s
  | _, _ => Except.error "attrs missing"

/-- os.unlink as a primitive. -/
def unlinkPrim (p : Path) : M Unit := prim (Op.unlinkOp p) (unlinkAct p)

/-- os.makedirs as a primitive. -/
def makedirsPrim (p : Path) : M Unit := prim (Op.makedirsOp p) (makedirsAct p)

/-- The bulk-copy primitive. -/
def cpPrim (src dst : Path) : M Unit := prim (Op.cpOp src dst) (cpAct src dst)

/-- clone_attrs as a primitive. -/
def clonePrim (src dst : Path) (follow : Bool) : M Unit :=
  prim (Op.cloneOp src dst) (cloneAct src dst follow)

/-- The ambient configuration: the ATTEMPTS cap and the compare and
shallow flags of the command line. -/
structure Cfg where
  ATTEMPTS : Nat
  compare : Bool
  shallow : Bool

/-- Lines 110-123: the previous-failure block.  Returns true when the
loop body continues early: at or above the attempt cap, or when the
comparison finds the destination already equivalent (then attributes are
cloned and the record deleted). -/
def prevBlock (cfg : Cfg) (src dst : Path) (prev : Option ErrRec) : M Bool :=
  match prev with
  | none => pure false
  | some pe =>
    if cfg.ATTEMPTS ≤ pe.attempts then
      pure true
    else do
      let b ← cmpM src dst false
      if b then do
        let lk ← islinkM dst
        clonePrim src dst (!lk)
        cacheDelM src
        pure true
      else
        pure false

/-- Lines 125-128: when the destination is a file or symlink, comparison
mode is on and the comparison fails, delete the destination. -/
def compareStep (cfg : Cfg) (src dst : Path) : M Unit := do
  let f ← isfileM dst
  let l ← islinkM dst
  if f || l then
    if cfg.compare then do
      let c ← cmpM src dst cfg.shallow
      if !c then unlinkPrim dst else pure ()
    else pure ()
  else pure ()

/-- Lines 129-135: when the destination is absent and not a dangling
symlink, create a directory for a directory source, otherwise ensure the
parent exists and invoke the bulk-copy primitive. -/
def createStep (src dst : Path) : M Unit := do
  let ex ← existsM dst
  let l ← islinkM dst
  if !ex && !l then do
    let d ← isdirM src
    if d then
      makedirsPrim dst
    else do
      makedirsPrim (dirnameP dst)
      cpPrim src dst
  else pure ()

/-- Lines 136-137: the success tail: clone attributes, delete the
record. -/
def finishStep (src dst : Path) : M Unit := do
  let lk ← islinkM dst
  clonePrim src dst (!lk)
  cacheDelM src

/-- Lines 109-137: the whole try block for one pair. -/
def tryBody (cfg : Cfg) (src dst : Path) (prev : Option ErrRec) : M Unit := do
  let skip ← prevBlock cfg src dst prev
  if skip then pure ()
  else do
    compareStep cfg src dst
    createStep src dst
    finishStep src dst

/-- Whether a computation finished without raising. -/
def isOkE {α : Type} : Except String α → Bool
  | Except.ok _ => true
  | Except.error _ => false

/-- Lines 106-149: one pair of the cp_ls loop: read the previous record,
run the try block; on any exception create the record with one attempt
when none existed, bump attempts when below the cap (and only then), and
append the source to the cumulative error list.  The caller always
yields once per pair. -/
def pairStep (cfg : Cfg) (src dst : Path) (errs : List Path) (s : St) :
    List Path × St :=
  let prev := cacheGet s.cache src
  match tryBody cfg src dst prev s with
  | (Except.ok _, s') => (errs, s')
  | (Except.error _, s') =>
    match prev with
    | none =>
      (errs ++ [src], { s' with cache := cacheSet s'.cache src ⟨src, dst, 1⟩ })
    | some pe =>
      if pe.attempts < cfg.ATTEMPTS then
        (errs ++ [src],
         { s' with cache := cacheSet s'.cache src { pe with attempts := pe.attempts + 1 } })
      else (errs ++ [src], s')

/-- The enumerated loop of cp_ls: the yielded (idx, errs) pairs, the
final error list and the final state. -/
def cpLsGo (cfg : Cfg) : List (Path × Path) → Nat → List Path → St →
    List (Nat × List Path) × List Path × St
  | [], _, errs, s => ([], errs, s)
  | (src, dst) :: rest, idx, errs, s =>
    let es' := pairStep cfg src dst errs s
    let rest' := cpLsGo cfg rest (idx + 1) es'.1 es'.2
    ((idx, es'.1) :: rest'.1, rest'.2)

/-- Lines 97-149: cp_ls over two parallel path lists (zip, enumerate
from 1). -/
def cp_ls (cfg : Cfg) (src_ls dst_ls : List Path) (s : St) :
    List (Nat × List Path) × List Path × St :=
  cpLsGo cfg (src_ls.zip dst_ls) 1 [] s

/-- cp_ls yields exactly one progress pair per input pair, whatever
happens inside the bodies: no exception aborts the batch. -/
theorem cpLsGo_length :
    ∀ (cfg : Cfg) (pairs : List (Path × Path)) (idx : Nat) (errs : List Path)
      (s : St), (cpLsGo cfg pairs idx errs s).1.length = pairs.length := by
  intro cfg pairs
  induction pairs with
  | nil => intro idx errs s; rfl
  | cons hd tl ih =>
    intro idx errs s
    cases hd with
    | mk src dst => simp [cpLsGo, ih]

/-- C2: no exception escapes the batch.  cp_ls yields one progress
notification per pair regardless of failures, and whenever the try body
of a pair raises, the pair step appends the source path to the
cumulative failure list and updates the ledger by the bookkeeping rule:
a fresh record with attempts 1 when none existed, an increment when the
existing record is below the cap (and no change at the cap, which is
skipped before anything can raise), after which processing moves to the
next pair. -/
theorem cp_ls_error_bookkeeping :
    ∀ (cfg : Cfg) (src dst : Path) (errs : List Path) (s : St)
      (pairs : List (Path × Path)) (idx : Nat),
      ((cpLsGo cfg pairs idx errs s).1.length = pairs.length)
      ∧ (isOkE (tryBody cfg src dst (cacheGet s.cache src) s).1 = false →
          (pairStep cfg src dst errs s).1 = errs ++ [src]
          ∧ (pairStep cfg src dst errs s).2.cache =
              (match cacheGet s.cache src with
               | none =>
                 cacheSet (tryBody cfg src dst (cacheGet s.cache src) s).2.cache
                   src ⟨src, dst, 1⟩
               | some pe =>
                 if pe.attempts < cfg.ATTEMPTS then
                   cacheSet (tryBody cfg src dst (cacheGet s.cache src) s).2.cache
                     src { pe with attempts := pe.attempts + 1 }
                 else (tryBody cfg src dst (cacheGet s.cache src) s).2.cache)) := by
  intro cfg src dst errs s pairs idx
  refine ⟨cpLsGo_length cfg pairs idx errs s, ?_⟩
  intro herr
  unfold pairStep
  dsimp only []
  match h : tryBody cfg src dst (cacheGet s.cache src) s with
  | (Except.ok a, s') =>
    rw [h] at herr
    simp [isOkE] at herr
  | (Except.error e, s') =>
    cases hprev : cacheGet s.cache src with
    | none => simp
    | some pe => by_cases hc : pe.attempts < cfg.ATTEMPTS <;> simp [hc]

/-- Filesystem for the C2 witness: only the directory /d exists; the
source /s/x is missing, so the bulk copy raises. -/
def wFS : FS := fun p => if p = str "/d" then some (Entry.dir []) else none

/-- Initial state for the C2 witness. -/
def wSt : St := { fs := wFS, cache := [], clock := 0, faults := [], trace := [] }

/-- Configuration for the C2 witness. -/
def wCfg : Cfg := { ATTEMPTS := 3, compare := false, shallow := false }

/-- Witness for C2 at a concrete input: copying the missing source /s/x
raises inside the try body; the source is appended to the failure list
and a record with one attempt is created. -/
theorem cp_ls_error_bookkeeping_witness :
    (pairStep wCfg (str "/s/x") (str "/d/x") [] wSt).1 = [] ++ [str "/s/x"]
    ∧ (pairStep wCfg (str "/s/x") (str "/d/x") [] wSt).2.cache =
        (match cacheGet wSt.cache (str "/s/x") with
         | none =>
           cacheSet
             (tryBody wCfg (str "/s/x") (str "/d/x")
               (cacheGet wSt.cache (str "/s/x")) wSt).2.cache
             (str "/s/x") ⟨str "/s/x", str "/d/x", 1⟩
         | some pe =>
           if pe.attempts < wCfg.ATTEMPTS then
             cacheSet
               (tryBody wCfg (str "/s/x") (str "/d/x")
                 (cacheGet wSt.cache (str "/s/x")) wSt).2.cache
               (str "/s/x") { pe with attempts := pe.attempts + 1 }
           else (tryBody wCfg (str "/s/x") (str "/d/x")
             (cacheGet wSt.cache (str "/s/x")) wSt).2.cache) :=
  (cp_ls_error_bookkeeping wCfg (str "/s/x") (str "/d/x") [] wSt [] 0).2
    (by decide)

/-- Setting a key then reading it gives the new record. -/
theorem cacheGet_set_self (c : Cache) (k : Path) (v : ErrRec) :
    cacheGet (cacheSet c k v) k = some v := by
  induction c with
  | nil => simp [cacheSet, cacheGet]
  | cons kv rest ih =>
    cases kv with
    | mk k' v' =>
      by_cases h : k' = k
      · subst h
        simp [cacheSet, cacheGet]
      · simp [cacheSet, cacheGet, beq_eq_false_iff_ne.mpr h, ih]

/-- Setting a key leaves other keys unchanged. -/
theorem cacheGet_set_ne (c : Cache) (k p : Path) (v : ErrRec) (h : p ≠ k) :
    cacheGet (cacheSet c k v) p = cacheGet c p := by
  induction c with
  | nil => simp [cacheSet, cacheGet, beq_eq_false_iff_ne.mpr (Ne.symm h)]
  | cons kv rest ih =>
    cases kv with
    | mk k' v' =>
      by_cases hk : k' = k
      · subst hk
        simp [cacheSet, cacheGet, beq_eq_false_iff_ne.mpr (Ne.symm h)]
      · by_cases hp : k' = p
        · subst hp
          simp [cacheSet, cacheGet, beq_eq_false_iff_ne.mpr hk]
        · simp [cacheSet, cacheGet, beq_eq_false_iff_ne.mpr hk,
            beq_eq_false_iff_ne.mpr hp, ih]

/-- Deleting a key then reading it gives nothing. -/
theorem cacheGet_delete_self (c : Cache) (k : Path) :
    cacheGet (cacheDelete c k) k = none := by
  induction c with
  | nil => simp [cacheDelete, cacheGet]
  | cons kv rest ih =>
    cases kv with
    | mk k' v' =>
      by_cases h : k' = k
      · subst h
        simpa [cacheDelete, List.filter] using ih
      · simp only [cacheDelete, List.filter, beq_eq_false_iff_ne.mpr h, Bool.not_false]
        rw [show List.filter (fun kv => !(kv.1 == k)) rest = cacheDelete rest k from rfl]
        simp [cacheGet, beq_eq_false_iff_ne.mpr h, ih]

/-- Deleting a key leaves other keys unchanged. -/
theorem cacheGet_delete_ne (c : Cache) (k p : Path) (h : p ≠ k) :
    cacheGet (cacheDelete c k) p = cacheGet c p := by
  induction c with
  | nil => simp [cacheDelete, cacheGet]
  | cons kv rest ih =>
    cases kv with
    | mk k' v' =>
      by_cases hk : k' = k
      · subst hk
        simp only [cacheDelete, List.filter, beq_self_eq_true, Bool.not_true]
        rw [show List.filter (fun kv => !(kv.1 == k')) rest = cacheDelete rest k' from rfl]
        simp [cacheGet, ih, beq_eq_false_iff_ne.mpr (Ne.symm h)]
      · simp only [cacheDelete, List.filter, beq_eq_false_iff_ne.mpr hk, Bool.not_false]
        rw [show List.filter (fun kv => !(kv.1 == k)) rest = cacheDelete rest k from rfl]
        by_cases hp : k' = p
        · subst hp
          simp [cacheGet]
        · simp [cacheGet, beq_eq_false_iff_ne.mpr hp, ih]

/-- A filesystem with no symlink entries anywhere. -/
def NoSym (fs : FS) : Prop := ∀ p t, fs p ≠ some (Entry.symlink t)

/-- The frame of one try body for the pair (src, dst): the fault
schedule is untouched; the trace only grows, and every appended bulk
copy names exactly this pair; ledger keys other than src are untouched
and the src record is at most deleted; the filesystem changes only at
dst, except that a makedirs may turn an absent path (the destination
parent) into a fresh empty directory; and symlink-freedom is
preserved. -/
def Frame (src dst : Path) {α : Type} (m : M α) : Prop :=
  ∀ s : St,
    (m s).2.faults = s.faults
    ∧ (∃ Δ, (m s).2.trace = s.trace ++ Δ
        ∧ ∀ a b, Op.cpOp a b ∈ Δ → a = src ∧ b = dst)
    ∧ (∀ p, p ≠ src → cacheGet (m s).2.cache p = cacheGet s.cache p)
    ∧ (cacheGet (m s).2.cache src = cacheGet s.cache src
        ∨ cacheGet (m s).2.cache src = none)
    ∧ (∀ p, p ≠ dst →
        ((m s).2.fs p = s.fs p ∨ (s.fs p = none ∧ (m s).2.fs p = some (Entry.dir []))))
    ∧ (NoSym s.fs → NoSym (m s).2.fs)

/-- A computation that does not change the state has every frame. -/
theorem frame_stateless {α : Type} (src dst : Path) {m : M α}
    (h : ∀ s, (m s).2 = s) : Frame src dst m := by
  intro s
  rw [h s]
  exact ⟨rfl, ⟨[], by simp, by simp⟩, fun p _ => rfl, Or.inl rfl,
    fun p _ => Or.inl rfl, fun hn => hn⟩

/-- pure has every frame. -/
theorem frame_pure {α : Type} (src dst : Path) (a : α) :
    Frame src dst (pure a : M α) :=
  frame_stateless src dst (fun _ => rfl)

/-- Frames compose along bind (also across a raise, which stops at the
state reached). -/
theorem frame_bind {α β : Type} {src dst : Path} {x : M α} {f : α → M β}
    (hx : Frame src dst x) (hf : ∀ a, Frame src dst (f a)) :
    Frame src dst (x >>= f) := by
  intro s
  obtain ⟨hfa1, ⟨Δ1, ht1, hcp1⟩, hco1, hcs1, hfs1, hns1⟩ := hx s
  rw [bindM_eq]
  rcases hxs : x s with ⟨r, s1⟩
  rw [hxs] at hfa1 ht1 hco1 hcs1 hfs1 hns1
  cases r with
  | error e =>
    exact ⟨hfa1, ⟨Δ1, ht1, hcp1⟩, hco1, hcs1, hfs1, hns1⟩
  | ok a =>
    obtain ⟨hfa2, ⟨Δ2, ht2, hcp2⟩, hco2, hcs2, hfs2, hns2⟩ := hf a s1
    refine ⟨by rw [hfa2, hfa1], ⟨Δ1 ++ Δ2, ?_, ?_⟩, ?_, ?_, ?_, ?_⟩
    · rw [ht2, ht1, List.append_assoc]
    · intro a' b' hm
      rcases List.mem_append.mp hm with hm | hm
      · exact hcp1 a' b' hm
      · exact hcp2 a' b' hm
    · intro p hp
      rw [hco2 p hp, hco1 p hp]
    · rcases hcs2 with h2 | h2
      · rcases hcs1 with h1 | h1
        · exact Or.inl (h2.trans h1)
        · exact Or.inr (h2.trans h1)
      · exact Or.inr h2
    · intro p hp
      rcases hfs2 p hp with h2 | h2
      · rcases hfs1 p hp with h1 | h1
        · exact Or.inl (h2.trans h1)
        · exact Or.inr ⟨h1.1, h2.trans h1.2⟩
      · rcases hfs1 p hp with h1 | h1
        · exact Or.inr ⟨h1 ▸ h2.1, h2.2⟩
        · rw [h1.2] at h2
          exact absurd h2.1 (by simp)
    · intro hn
      exact hns2 (hns1 hn)

/-- Frames pass through two-way branches. -/
theorem frame_ite {α : Type} (src dst : Path) (c : Prop) [Decidable c]
    {m1 m2 : M α} (h1 : Frame src dst m1) (h2 : Frame src dst m2) :
    Frame src dst (if c then m1 else m2) := by
  by_cases hc : c
  · simpa [hc] using h1
  · simpa [hc] using h2

/-- Removing an entry cannot create symlinks. -/
theorem noSym_fsRemove {fs : FS} (hn : NoSym fs) (q : Path) :
    NoSym (fsRemove fs q) := by
  intro p t
  unfold fsRemove
  by_cases h : p = q
  · simp [h]
  · simp only [h, if_false]
    exact hn p t

/-- Writing a non-symlink entry cannot create symlinks. -/
theorem noSym_fsSet {fs : FS} (hn : NoSym fs) (q : Path) (e : Entry)
    (he : ∀ t, e ≠ Entry.symlink t) : NoSym (fsSet fs q e) := by
  intro p t
  unfold fsSet
  by_cases h : p = q
  · simp only [h, if_true]
    intro hc
    exact he t (by injection hc)
  · simp only [h, if_false]
    exact hn p t

/-- The generic frame of one primitive: record the op, advance the
clock, possibly raise, otherwise run an action that touches neither
faults, trace nor ledger, and writes the filesystem only at dst or by
creating a fresh directory where nothing existed. -/
theorem frame_prim (src dst : Path) (op : Op) (act : St → Except String St)
    (hop : ∀ a b, op = Op.cpOp a b → a = src ∧ b = dst)
    (hact : ∀ s s2, act s = Except.ok s2 →
      s2.faults = s.faults ∧ s2.trace = s.trace ∧ s2.cache = s.cache
      ∧ (∀ p, p ≠ dst →
          (s2.fs p = s.fs p ∨ (s.fs p = none ∧ s2.fs p = some (Entry.dir []))))
      ∧ (NoSym s.fs → NoSym s2.fs)) :
    Frame src dst (prim op act) := by
  intro s
  unfold prim
  dsimp only []
  split
  · exact ⟨rfl, ⟨[op], rfl, fun a b hm => hop a b (List.mem_singleton.mp hm).symm⟩,
      fun p _ => rfl, Or.inl rfl, fun p _ => Or.inl rfl, fun hn => hn⟩
  · match hact2 : act { s with trace := s.trace ++ [op], clock := s.clock + 1 } with
    | Except.error e =>
      exact ⟨rfl, ⟨[op], rfl, fun a b hm => hop a b (List.mem_singleton.mp hm).symm⟩,
        fun p _ => rfl, Or.inl rfl, fun p _ => Or.inl rfl, fun hn => hn⟩
    | Except.ok s2 =>
      obtain ⟨h1, h2, h3, h4, h5⟩ :=
        hact { s with trace := s.trace ++ [op], clock := s.clock + 1 } s2 hact2
      exact ⟨h1, ⟨[op], h2, fun a b hm => hop a b (List.mem_singleton.mp hm).symm⟩,
        fun p hp => by rw [h3], Or.inl (by rw [h3]), h4, h5⟩

/-- Frame of os.unlink on the destination. -/
theorem frame_unlinkPrim (src dst : Path) : Frame src dst (unlinkPrim dst) := by
  apply frame_prim
  · intro a b h; simp at h
  · intro s s2 hact
    unfold unlinkAct at hact
    match hfd : s.fs dst with
    | some (Entry.file c m) =>
      rw [hfd] at hact
      simp only [Except.ok.injEq] at hact
      subst hact
      exact ⟨rfl, rfl, rfl, fun p hp => Or.inl (by simp [fsRemove, hp]),
        fun hn => noSym_fsRemove hn dst⟩
    | some (Entry.symlink t) =>
      rw [hfd] at hact
      simp only [Except.ok.injEq] at hact
      subst hact
      exact ⟨rfl, rfl, rfl, fun p hp => Or.inl (by simp [fsRemove, hp]),
        fun hn => noSym_fsRemove hn dst⟩
    | some (Entry.dir l) => rw [hfd] at hact; simp at hact
    | none => rw [hfd] at hact; simp at hact

/-- Frame of os.makedirs on any path: the only possible change anywhere
is turning an absent path into a fresh empty directory. -/
theorem frame_makedirsPrim (src dst q : Path) : Frame src dst (makedirsPrim q) := by
  apply frame_prim
  · intro a b h; simp at h
  · intro s s2 hact
    unfold makedirsAct at hact
    by_cases hd : isdir s.fs q = true
    · simp only [hd, if_true, Except.ok.injEq] at hact
      subst hact
      exact ⟨rfl, rfl, rfl, fun p _ => Or.inl rfl, fun hn => hn⟩
    · simp only [hd, Bool.false_eq_true, if_false] at hact
      match hfq : s.fs q with
      | some e => rw [hfq] at hact; simp at hact
      | none =>
        rw [hfq] at hact
        simp only [Except.ok.injEq] at hact
        subst hact
        refine ⟨rfl, rfl, rfl, ?_, fun hn => noSym_fsSet hn q _ (by intro t h; cases h)⟩
        intro p hp
        by_cases hpq : p = q
        · subst hpq
          exact Or.inr ⟨hfq, by simp [fsSet]⟩
        · exact Or.inl (by simp [fsSet, hpq])

/-- Frame of the bulk-copy primitive on its own pair. -/
theorem frame_cpPrim (src dst : Path) : Frame src dst (cpPrim src dst) := by
  apply frame_prim
  · intro a b h
    injection h with h1 h2
    exact ⟨h1.symm, h2.symm⟩
  · intro s s2 hact
    unfold cpAct at hact
    match hfs : s.fs src with
    | none => rw [hfs] at hact; simp at hact
    | some e =>
      rw [hfs] at hact
      match hfd : s.fs dst with
      | some e' =>
        rw [hfd] at hact
        simp only [Except.ok.injEq] at hact
        subst hact
        exact ⟨rfl, rfl, rfl, fun p _ => Or.inl rfl, fun hn => hn⟩
      | none =>
        rw [hfd] at hact
        simp only [Except.ok.injEq] at hact
        subst hact
        refine ⟨rfl, rfl, rfl, fun p hp => Or.inl (by simp [fsSet, hp]), ?_⟩
        intro hn
        refine noSym_fsSet hn dst e ?_
        intro t he
        subst he
        exact absurd hfs (hn src t)

/-- Frame of clone_attrs on its own pair. -/
theorem frame_clonePrim (src dst : Path) (fl : Bool) :
    Frame src dst (clonePrim src dst fl) := by
  apply frame_prim
  · intro a b h; simp at h
  · intro s s2 hact
    unfold cloneAct at hact
    match hfs : s.fs src, hfd : s.fs dst with
    | some (Entry.file c1 m1), some (Entry.file c2 m2) =>
      rw [hfs, hfd] at hact
      by_cases hm : m1 = m2
      · simp only [hm, if_true, Except.ok.injEq] at hact
        subst hact
        exact ⟨rfl, rfl, rfl, fun p _ => Or.inl rfl, fun hn => hn⟩
      · simp only [hm, if_false, Except.ok.injEq] at hact
        subst hact
        exact ⟨rfl, rfl, rfl, fun p hp => Or.inl (by simp [fsSet, hp]),
          fun hn => noSym_fsSet hn dst _ (by intro t h; cases h)⟩
    | some (Entry.file c1 m1), some (Entry.dir l) =>
      rw [hfs, hfd] at hact
      simp only [Except.ok.injEq] at hact
      subst hact
      exact ⟨rfl, rfl, rfl, fun p _ => Or.inl rfl, fun hn => hn⟩
    | some (Entry.file c1 m1), some (Entry.symlink t) =>
      rw [hfs, hfd] at hact
      simp only [Except.ok.injEq] at hact
      subst hact
      exact ⟨rfl, rfl, rfl, fun p _ => Or.inl rfl, fun hn => hn⟩
    | some (Entry.dir l), some e2 =>
      rw [hfs, hfd] at hact
      simp only [Except.ok.injEq] at hact
      subst hact
      exact ⟨rfl, rfl, rfl, fun p _ => Or.inl rfl, fun hn => hn⟩
    | some (Entry.symlink t), some e2 =>
      rw [hfs, hfd] at hact
      simp only [Except.ok.injEq] at hact
      subst hact
      exact ⟨rfl, rfl, rfl, fun p _ => Or.inl rfl, fun hn => hn⟩
    | some e1, none => rw [hfs, hfd] at hact; cases e1 <;> simp at hact
    | none, _ => rw [hfs] at hact; simp at hact

/-- Frame of the ledger delete on the own key. -/
theorem frame_cacheDelM (src dst : Path) : Frame src dst (cacheDelM src) := by
  intro s
  refine ⟨rfl, ⟨[], by simp [cacheDelM], by simp⟩, ?_, ?_, fun p _ => Or.inl rfl,
    fun hn => hn⟩
  · intro p hp
    exact cacheGet_delete_ne s.cache src p hp
  · exact Or.inr (cacheGet_delete_self s.cache src)

/-- Frame of the whole previous-failure block. -/
theorem frame_prevBlock (cfg : Cfg) (src dst : Path) (prev : Option ErrRec) :
    Frame src dst (prevBlock cfg src dst prev) := by
  cases prev with
  | none => exact frame_pure src dst false
  | some pe =>
    unfold prevBlock
    apply frame_ite
    · exact frame_pure src dst true
    · apply frame_bind (frame_stateless src dst (fun s => rfl))
      intro b
      apply frame_ite
      · apply frame_bind (frame_stateless src dst (fun s => rfl))
        intro lk
        apply frame_bind (frame_clonePrim src dst (!lk))
        intro _
        apply frame_bind (frame_cacheDelM src dst)
        intro _
        exact frame_pure src dst true
      · exact frame_pure src dst false

/-- Frame of the compare-and-delete step. -/
theorem frame_compareStep (cfg : Cfg) (src dst : Path) :
    Frame src dst (compareStep cfg src dst) := by
  unfold compareStep
  apply frame_bind (frame_stateless src dst (fun s => rfl))
  intro f
  apply frame_bind (frame_stateless src dst (fun s => rfl))
  intro l
  apply frame_ite
  · apply frame_ite
    · apply frame_bind (frame_stateless src dst (fun s => rfl))
      intro c
      apply frame_ite
      · exact frame_unlinkPrim src dst
      · exact frame_pure src dst ()
    · exact frame_pure src dst ()
  · exact frame_pure src dst ()

/-- Frame of the create-or-copy step. -/
theorem frame_createStep (src dst : Path) : Frame src dst (createStep src dst) := by
  unfold createStep
  apply frame_bind (frame_stateless src dst (fun s => rfl))
  intro ex
  apply frame_bind (frame_stateless src dst (fun s => rfl))
  intro l
  apply frame_ite
  · apply frame_bind (frame_stateless src dst (fun s => rfl))
    intro d
    apply frame_ite
    · exact frame_makedirsPrim src dst dst
    · apply frame_bind (frame_makedirsPrim src dst (dirnameP dst))
      intro _
      exact frame_cpPrim src dst
  · exact frame_pure src dst ()

/-- Frame of the success tail. -/
theorem frame_finishStep (src dst : Path) : Frame src dst (finishStep src dst) := by
  unfold finishStep
  apply frame_bind (frame_stateless src dst (fun s => rfl))
  intro lk
  apply frame_bind (frame_clonePrim src dst (!lk))
  intro _
  exact frame_cacheDelM src dst

/-- Frame of the whole try block. -/
theorem frame_tryBody (cfg : Cfg) (src dst : Path) (prev : Option ErrRec) :
    Frame src dst (tryBody cfg src dst prev) := by
  unfold tryBody
  apply frame_bind (frame_prevBlock cfg src dst prev)
  intro skip
  apply frame_ite
  · exact frame_pure src dst ()
  · apply frame_bind (frame_compareStep cfg src dst)
    intro _
    apply frame_bind (frame_createStep src dst)
    intro _
    exact frame_finishStep src dst

/-! ### The Retry Orchestrator (lines 320-334)

combined_errs collects every stored record; the records with attempts
below the cap are re-presented to the Copy Engine as parallel src and
dst lists.  The loop condition (c < ATTEMPTS or True) is always true and
c is never incremented, so the loop exits only through the break when a
pass returns no errors; the models carries explicit fuel and the
termination theorem exhibits sufficient fuel. -/

/-- Lines 326-328: the records selected for retry, in key order. -/
def retryRecs (c : Cache) (A : Nat) : List ErrRec :=
  (c.map Prod.snd).filter (fun d => d.attempts < A)

/-- Line 328: the source paths to retry. -/
def srcRetries (c : Cache) (A : Nat) : List Path :=
  (retryRecs c A).map ErrRec.src

/-- Line 329: the destination paths to retry. -/
def dstRetries (c : Cache) (A : Nat) : List Path :=
  (retryRecs c A).map ErrRec.dst

/-- Lines 252-264: copy_with_progress drains cp_ls and returns its final
error list; an empty input returns immediately. -/
def copy_with_progress (cfg : Cfg) (old new : List Path) (s : St) :
    List Path × St :=
  if old.length = 0 then ([], s)
  else
    let r := cp_ls cfg old new s
    (r.2.1, r.2.2)

/-- Lines 320-334: the retry loop, with explicit fuel (none = fuel ran
out; the loop itself has no effective bound since its condition is
always true). -/
def retryLoop (cfg : Cfg) : Nat → St → Option St
  | 0, _ => none
  | fuel + 1, s =>
    let srcs := srcRetries s.cache cfg.ATTEMPTS
    let dsts := dstRetries s.cache cfg.ATTEMPTS
    let r := copy_with_progress cfg srcs dsts s
    if r.1.isEmpty then some r.2
    else retryLoop cfg fuel r.2

/-- A pair whose record is at the cap is skipped before any effect: the
whole state and the error list are returned untouched. -/
theorem pairStep_skip (cfg : Cfg) (src dst : Path) (errs : List Path)
    (s : St) (r : ErrRec) (hr : cacheGet s.cache src = some r)
    (hcap : cfg.ATTEMPTS ≤ r.attempts) :
    pairStep cfg src dst errs s = (errs, s) := by
  have htb : tryBody cfg src dst (cacheGet s.cache src) s = (Except.ok (), s) := by
    rw [hr]
    unfold tryBody prevBlock
    rw [bindM_eq]
    simp only [if_pos hcap, pureM_eq, if_true]
  unfold pairStep
  dsimp only []
  rw [htb]

/-- The frame of one whole pair step: faults untouched, trace grown only
by this pair's operations, foreign ledger keys untouched, filesystem
changed only at dst (or a fresh parent directory), symlink-freedom
preserved, and the error list either unchanged or extended by this
source. -/
theorem pairStep_frame (cfg : Cfg) (src dst : Path) (errs : List Path) (s : St) :
    (pairStep cfg src dst errs s).2.faults = s.faults
    ∧ (∃ Δ, (pairStep cfg src dst errs s).2.trace = s.trace ++ Δ
        ∧ ∀ a b, Op.cpOp a b ∈ Δ → a = src ∧ b = dst)
    ∧ (∀ p, p ≠ src →
        cacheGet (pairStep cfg src dst errs s).2.cache p = cacheGet s.cache p)
    ∧ (∀ p, p ≠ dst →
        ((pairStep cfg src dst errs s).2.fs p = s.fs p
          ∨ (s.fs p = none
              ∧ (pairStep cfg src dst errs s).2.fs p = some (Entry.dir []))))
    ∧ (NoSym s.fs → NoSym (pairStep cfg src dst errs s).2.fs)
    ∧ ((pairStep cfg src dst errs s).1 = errs
        ∨ (pairStep cfg src dst errs s).1 = errs ++ [src]) := by
  obtain ⟨hfa, ⟨Δ, ht, hcp⟩, hco, hcs, hfs, hns⟩ :=
    frame_tryBody cfg src dst (cacheGet s.cache src) s
  unfold pairStep
  dsimp only []
  rcases h : tryBody cfg src dst (cacheGet s.cache src) s with ⟨res, s'⟩
  rw [h] at hfa ht hco hcs hfs hns
  cases res with
  | ok a =>
    exact ⟨hfa, ⟨Δ, ht, hcp⟩, hco, hfs, hns, Or.inl rfl⟩
  | error e =>
    cases hprev : cacheGet s.cache src with
    | none =>
      refine ⟨hfa, ⟨Δ, ht, hcp⟩, ?_, hfs, hns, Or.inr rfl⟩
      intro p hp
      rw [show cacheGet (cacheSet s'.cache src ⟨src, dst, 1⟩) p
            = cacheGet s'.cache p from cacheGet_set_ne s'.cache src p _ hp]
      exact hco p hp
    | some pe =>
      by_cases hc : pe.attempts < cfg.ATTEMPTS
      · simp only [hc, if_true]
        refine ⟨hfa, ⟨Δ, ht, hcp⟩, ?_, hfs, hns, Or.inr (by trivial)⟩
        intro p hp
        rw [show cacheGet (cacheSet s'.cache src { pe with attempts := pe.attempts + 1 }) p
              = cacheGet s'.cache p from cacheGet_set_ne s'.cache src p _ hp]
        exact hco p hp
      · simp only [hc, if_false]
        exact ⟨hfa, ⟨Δ, ht, hcp⟩, hco, hfs, hns, Or.inr (by trivial)⟩

/-- Within one cp_ls batch, a record at the cap is never touched and its
source is never passed to the bulk-copy primitive. -/
theorem cpLsGo_cap (cfg : Cfg) :
    ∀ (pairs : List (Path × Path)) (idx : Nat) (errs : List Path) (s : St)
      (p : Path) (rp : ErrRec),
      cacheGet s.cache p = some rp → cfg.ATTEMPTS ≤ rp.attempts →
      cacheGet ((cpLsGo cfg pairs idx errs s).2.2).cache p = some rp
      ∧ (∀ b, Op.cpOp p b ∈ ((cpLsGo cfg pairs idx errs s).2.2).trace →
          Op.cpOp p b ∈ s.trace) := by
  intro pairs
  induction pairs with
  | nil => intro idx errs s p rp hp hcap; exact ⟨hp, fun b hb => hb⟩
  | cons hd tl ih =>
    intro idx errs s p rp hp hcap
    cases hd with
    | mk src dst =>
      simp only [cpLsGo]
      by_cases hps : p = src
      · subst hps
        rw [pairStep_skip cfg p dst errs s rp hp hcap]
        exact ih (idx + 1) errs s p rp hp hcap
      · obtain ⟨_, ⟨Δ, ht, hcp⟩, hco, _, _, _⟩ := pairStep_frame cfg src dst errs s
        have hp' : cacheGet (pairStep cfg src dst errs s).2.cache p = some rp := by
          rw [hco p hps]; exact hp
        obtain ⟨ih1, ih2⟩ := ih (idx + 1) (pairStep cfg src dst errs s).1
          (pairStep cfg src dst errs s).2 p rp hp' hcap
        refine ⟨ih1, ?_⟩
        intro b hb
        have hb' := ih2 b hb
        rw [ht] at hb'
        rcases List.mem_append.mp hb' with hm | hm
        · exact hm
        · exact absurd (hcp p b hm).1 hps

/-- Across the whole retry loop, a record at the cap is never touched
and its source is never passed to the bulk-copy primitive. -/
theorem retryLoop_cap (cfg : Cfg) :
    ∀ (n : Nat) (s s' : St) (p : Path) (rp : ErrRec),
      cacheGet s.cache p = some rp → cfg.ATTEMPTS ≤ rp.attempts →
      retryLoop cfg n s = some s' →
      cacheGet s'.cache p = some rp
      ∧ (∀ b, Op.cpOp p b ∈ s'.trace → Op.cpOp p b ∈ s.trace) := by
  intro n
  induction n with
  | zero => intro s s' p rp _ _ h; simp [retryLoop] at h
  | succ m ih =>
    intro s s' p rp hp hcap h
    unfold retryLoop at h
    dsimp only [] at h
    have hmid : cacheGet (copy_with_progress cfg (srcRetries s.cache cfg.ATTEMPTS)
          (dstRetries s.cache cfg.ATTEMPTS) s).2.cache p = some rp
        ∧ (∀ b, Op.cpOp p b ∈ (copy_with_progress cfg
              (srcRetries s.cache cfg.ATTEMPTS)
              (dstRetries s.cache cfg.ATTEMPTS) s).2.trace →
            Op.cpOp p b ∈ s.trace) := by
      unfold copy_with_progress
      by_cases hlen : (srcRetries s.cache cfg.ATTEMPTS).length = 0
      · rw [if_pos hlen]
        exact ⟨hp, fun b hb => hb⟩
      · rw [if_neg hlen]
        exact cpLsGo_cap cfg _ 1 [] s p rp hp hcap
    by_cases he : (copy_with_progress cfg (srcRetries s.cache cfg.ATTEMPTS)
        (dstRetries s.cache cfg.ATTEMPTS) s).1.isEmpty = true
    · rw [if_pos he] at h
      have hs' : s' = (copy_with_progress cfg (srcRetries s.cache cfg.ATTEMPTS)
          (dstRetries s.cache cfg.ATTEMPTS) s).2 := by
        injection h with h2
        exact h2.symm
      subst hs'
      exact hmid
    · rw [if_neg he] at h
      obtain ⟨h1, h2⟩ := ih _ s' p rp hmid.1 hcap h
      exact ⟨h1, fun b hb => hmid.2 b (h2 b hb)⟩

/-- Every selected retry source comes from a stored record strictly
below the cap. -/
theorem srcRetries_below_cap (c : Cache) (A : Nat) :
    ∀ p, p ∈ srcRetries c A →
      ∃ r2, r2 ∈ c.map Prod.snd ∧ r2.attempts < A ∧ r2.src = p := by
  intro p hp
  unfold srcRetries retryRecs at hp
  rcases List.mem_map.mp hp with ⟨r2, hr2, hsrc⟩
  rcases List.mem_filter.mp hr2 with ⟨hmem, hlt⟩
  exact ⟨r2, hmem, by simpa using hlt, hsrc⟩

/-- C3: permanent skip at the cap.  A pair whose ledger record has
attempts at or above the cap is skipped with the whole state untouched;
through any cp_ls batch and through the whole retry loop such a record
is never mutated and its source is never passed to the bulk copy
primitive; and the Retry Orchestrator only ever selects sources whose
records are strictly below the cap. -/
theorem cap_enforcement :
    ∀ (cfg : Cfg) (src dst : Path) (errs : List Path) (s : St) (r : ErrRec),
      (cacheGet s.cache src = some r → cfg.ATTEMPTS ≤ r.attempts →
        pairStep cfg src dst errs s = (errs, s))
      ∧ (∀ pairs idx p rp, cacheGet s.cache p = some rp →
          cfg.ATTEMPTS ≤ rp.attempts →
          cacheGet ((cpLsGo cfg pairs idx errs s).2.2).cache p = some rp
          ∧ (∀ b, Op.cpOp p b ∈ ((cpLsGo cfg pairs idx errs s).2.2).trace →
              Op.cpOp p b ∈ s.trace))
      ∧ (∀ n s' p rp, cacheGet s.cache p = some rp →
          cfg.ATTEMPTS ≤ rp.attempts → retryLoop cfg n s = some s' →
          cacheGet s'.cache p = some rp
          ∧ (∀ b, Op.cpOp p b ∈ s'.trace → Op.cpOp p b ∈ s.trace))
      ∧ (∀ p, p ∈ srcRetries s.cache cfg.ATTEMPTS →
          ∃ r2, r2 ∈ s.cache.map Prod.snd ∧ r2.attempts < cfg.ATTEMPTS
            ∧ r2.src = p) :=
  fun cfg src dst errs s r =>
    ⟨pairStep_skip cfg src dst errs s r,
     fun pairs idx p rp hp hcap => cpLsGo_cap cfg pairs idx errs s p rp hp hcap,
     fun n s' p rp hp hcap h => retryLoop_cap cfg n s s' p rp hp hcap h,
     srcRetries_below_cap s.cache cfg.ATTEMPTS⟩

/-- State with one capped record, for the C3 witness. -/
def capSt : St :=
  { fs := wFS, cache := [(str "/s/a", ⟨str "/s/a", str "/d/a", 3⟩)],
    clock := 0, faults := [], trace := [] }

/-- Witness for C3 at a concrete input: a record with three attempts at
cap three is skipped with the state untouched. -/
theorem cap_enforcement_witness :
    pairStep wCfg (str "/s/a") (str "/d/a") [] capSt = ([], capSt) :=
  (cap_enforcement wCfg (str "/s/a") (str "/d/a") [] capSt
      ⟨str "/s/a", str "/d/a", 3⟩).1 (by decide) (by decide)

/-- One pair step keeps every stored attempt count at or below the cap
(cap at least one): fresh records start at one, and the bump only fires
strictly below the cap. -/
theorem pairStep_attempts_bound (cfg : Cfg) (src dst : Path) (errs : List Path)
    (s : St) (hA : 1 ≤ cfg.ATTEMPTS)
    (hb : ∀ k rk, cacheGet s.cache k = some rk → rk.attempts ≤ cfg.ATTEMPTS) :
    ∀ k rk, cacheGet (pairStep cfg src dst errs s).2.cache k = some rk →
      rk.attempts ≤ cfg.ATTEMPTS := by
  intro k rk hk
  obtain ⟨_, _, hco, hcs, _, _⟩ :=
    frame_tryBody cfg src dst (cacheGet s.cache src) s
  unfold pairStep at hk
  dsimp only [] at hk
  rcases h : tryBody cfg src dst (cacheGet s.cache src) s with ⟨res, s'⟩
  rw [h] at hk hco hcs
  cases res with
  | ok a =>
    by_cases hks : k = src
    · subst hks
      rcases hcs with h1 | h1
      · rw [h1] at hk
        exact hb k rk hk
      · rw [h1] at hk
        cases hk
    · rw [hco k hks] at hk
      exact hb k rk hk
  | error e =>
    cases hprev : cacheGet s.cache src with
    | none =>
      rw [hprev] at hk
      by_cases hks : k = src
      · subst hks
        rw [cacheGet_set_self] at hk
        injection hk with hv
        rw [← hv]
        exact hA
      · rw [cacheGet_set_ne s'.cache src k _ hks, hco k hks] at hk
        exact hb k rk hk
    | some pe =>
      rw [hprev] at hk
      dsimp only [] at hk
      by_cases hc : pe.attempts < cfg.ATTEMPTS
      · rw [if_pos hc] at hk
        by_cases hks : k = src
        · subst hks
          rw [cacheGet_set_self] at hk
          injection hk with hv
          rw [← hv]
          exact hc
        · rw [cacheGet_set_ne s'.cache src k _ hks, hco k hks] at hk
          exact hb k rk hk
      · rw [if_neg hc] at hk
        by_cases hks : k = src
        · subst hks
          rcases hcs with h1 | h1
          · rw [h1] at hk
            exact hb k rk hk
          · rw [h1] at hk
            cases hk
        · rw [hco k hks] at hk
          exact hb k rk hk

/-- The bound lifts over a whole batch. -/
theorem cpLsGo_attempts_bound (cfg : Cfg) (hA : 1 ≤ cfg.ATTEMPTS) :
    ∀ (pairs : List (Path × Path)) (idx : Nat) (errs : List Path) (s : St),
      (∀ k rk, cacheGet s.cache k = some rk → rk.attempts ≤ cfg.ATTEMPTS) →
      (∀ k rk, cacheGet ((cpLsGo cfg pairs idx errs s).2.2).cache k = some rk →
        rk.attempts ≤ cfg.ATTEMPTS) := by
  intro pairs
  induction pairs with
  | nil => intro idx errs s hb; exact hb
  | cons hd tl ih =>
    intro idx errs s hb
    cases hd with
    | mk src dst =>
      exact ih (idx + 1) (pairStep cfg src dst errs s).1
        (pairStep cfg src dst errs s).2
        (pairStep_attempts_bound cfg src dst errs s hA hb)

/-- C9: assuming the cap is at least one and every stored record is at
or below the cap before a cp_ls call, every stored record is still at or
below the cap afterwards — fresh records start at one attempt and the
increment branch fires only strictly below the cap, so attempts never
exceed the cap. -/
theorem cp_ls_attempts_bound :
    ∀ (cfg : Cfg) (src_ls dst_ls : List Path) (s : St),
      1 ≤ cfg.ATTEMPTS →
      (∀ k rk, cacheGet s.cache k = some rk → rk.attempts ≤ cfg.ATTEMPTS) →
      (∀ k rk, cacheGet ((cp_ls cfg src_ls dst_ls s).2.2).cache k = some rk →
        rk.attempts ≤ cfg.ATTEMPTS) :=
  fun cfg src_ls dst_ls s hA hb =>
    cpLsGo_attempts_bound cfg hA (src_ls.zip dst_ls) 1 [] s hb

/-- Witness for C9 at a concrete input: the failing run of the C2
witness scenario creates a record with one attempt, bounded by the cap
of three. -/
theorem cp_ls_attempts_bound_witness :
    (⟨str "/s/x", str "/d/x", 1⟩ : ErrRec).attempts ≤ wCfg.ATTEMPTS :=
  cp_ls_attempts_bound wCfg [str "/s/x"] [str "/d/x"] wSt (by decide)
    (by intro k rk h; simp [cacheGet, wSt] at h)
    (str "/s/x") ⟨str "/s/x", str "/d/x", 1⟩ (by decide)

/-! ### Ledger well-formedness and termination bookkeeping

The data model keeps one record per source path, keyed by it (set always
stores a record whose src field is the key).  These two invariants —
distinct keys and key-matching src fields — drive the retry loop
termination measure. -/

/-- The ledger keys are pairwise distinct. -/
def nodupKeys (c : Cache) : Prop := (cacheKeys c).Nodup

/-- Every stored record's src field is its key. -/
def keyedOK (c : Cache) : Prop := ∀ kv, kv ∈ c → (kv : Path × ErrRec).2.src = kv.1

/-- Deleting twice is deleting once. -/
theorem cacheDelete_idem (c : Cache) (k : Path) :
    cacheDelete (cacheDelete c k) k = cacheDelete c k := by
  unfold cacheDelete
  rw [List.filter_filter]
  simp

/-- Keys after a set come from the old keys or are the set key. -/
theorem cacheKeys_set_subset (c : Cache) (k : Path) (v : ErrRec) :
    ∀ p, p ∈ cacheKeys (cacheSet c k v) → p ∈ cacheKeys c ∨ p = k := by
  induction c with
  | nil => intro p hp; simp [cacheSet, cacheKeys] at hp; exact Or.inr hp
  | cons kv rest ih =>
    cases kv with
    | mk k' v' =>
      intro p hp
      by_cases hk : k' = k
      · subst hk
        simp only [cacheSet, beq_self_eq_true, if_true, cacheKeys, List.map_cons,
          List.mem_cons] at hp ⊢
        rcases hp with hp | hp
        · exact Or.inl (Or.inl hp)
        · exact Or.inl (Or.inr hp)
      · simp only [cacheSet, beq_eq_false_iff_ne.mpr hk, Bool.false_eq_true, if_false,
          cacheKeys, List.map_cons, List.mem_cons] at hp ⊢
        rcases hp with hp | hp
        · exact Or.inl (Or.inl hp)
        · rcases ih p hp with h | h
          · exact Or.inl (Or.inr h)
          · exact Or.inr h

/-- Setting a key preserves key distinctness. -/
theorem nodupKeys_set (c : Cache) (k : Path) (v : ErrRec) (h : nodupKeys c) :
    nodupKeys (cacheSet c k v) := by
  induction c with
  | nil => simp [cacheSet, nodupKeys, cacheKeys]
  | cons kv rest ih =>
    cases kv with
    | mk k' v' =>
      unfold nodupKeys cacheKeys at h
      rw [List.map_cons, List.nodup_cons] at h
      by_cases hk : k' = k
      · subst hk
        unfold nodupKeys cacheKeys
        simp only [cacheSet, beq_self_eq_true, if_true, List.map_cons, List.nodup_cons]
        exact h
      · unfold nodupKeys cacheKeys
        simp only [cacheSet, beq_eq_false_iff_ne.mpr hk, Bool.false_eq_true, if_false,
          List.map_cons, List.nodup_cons]
        constructor
        · intro hmem
          rcases cacheKeys_set_subset rest k v k' hmem with hm | hm
          · exact h.1 hm
          · exact hk hm
        · exact ih h.2

/-- Deleting a key preserves key distinctness. -/
theorem nodupKeys_delete (c : Cache) (k : Path) (h : nodupKeys c) :
    nodupKeys (cacheDelete c k) := by
  unfold nodupKeys cacheKeys at h ⊢
  exact List.Nodup.sublist (List.Sublist.map Prod.fst (List.filter_sublist c)) h

/-- Deleting preserves key-matching. -/
theorem keyedOK_delete (c : Cache) (k : Path) (h : keyedOK c) :
    keyedOK (cacheDelete c k) := by
  intro kv hkv
  exact h kv (List.mem_of_mem_filter hkv)

/-- Setting a key whose record carries it preserves key-matching. -/
theorem keyedOK_set (c : Cache) (k : Path) (v : ErrRec) (h : keyedOK c)
    (hv : v.src = k) : keyedOK (cacheSet c k v) := by
  induction c with
  | nil =>
    intro kv hkv
    simp only [cacheSet, List.mem_singleton] at hkv
    rw [hkv]
    exact hv
  | cons kv0 rest ih =>
    cases kv0 with
    | mk k' v' =>
      have hrest : keyedOK rest := fun kv hkv => h kv (List.mem_cons_of_mem _ hkv)
      intro kv hkv
      by_cases hk : k' = k
      · subst hk
        simp only [cacheSet, beq_self_eq_true, if_true, List.mem_cons] at hkv
        rcases hkv with hkv | hkv
        · rw [hkv]; exact hv
        · exact h kv (List.mem_cons_of_mem _ hkv)
      · simp only [cacheSet, beq_eq_false_iff_ne.mpr hk, Bool.false_eq_true, if_false,
          List.mem_cons] at hkv
        rcases hkv with hkv | hkv
        · rw [hkv]
          exact h (k', v') (List.mem_cons_self _ _)
        · exact ih hrest kv hkv

/-- A successful get exposes a stored pair. -/
theorem cacheGet_mem (c : Cache) (k : Path) (v : ErrRec)
    (h : cacheGet c k = some v) : (k, v) ∈ c := by
  induction c with
  | nil => simp [cacheGet] at h
  | cons kv rest ih =>
    cases kv with
    | mk k' v' =>
      by_cases hk : k' = k
      · subst hk
        simp only [cacheGet, beq_self_eq_true, if_true, Option.some.injEq] at h
        rw [← h]
        exact List.mem_cons_self _ _
      · simp only [cacheGet, beq_eq_false_iff_ne.mpr hk, Bool.false_eq_true,
          if_false] at h
        exact List.mem_cons_of_mem _ (ih h)

/-- With distinct keys, a stored pair is what get returns. -/
theorem mem_cacheGet (c : Cache) (k : Path) (v : ErrRec) (hnd : nodupKeys c)
    (h : (k, v) ∈ c) : cacheGet c k = some v := by
  induction c with
  | nil => simp at h
  | cons kv rest ih =>
    cases kv with
    | mk k' v' =>
      unfold nodupKeys cacheKeys at hnd
      rw [List.map_cons, List.nodup_cons] at hnd
      rcases List.mem_cons.mp h with hh | hh
      · injection hh with h1 h2
        subst h1
        subst h2
        simp [cacheGet]
      · have hne : k' ≠ k := by
          intro he
          subst he
          exact hnd.1 (List.mem_map.mpr ⟨(k', v), hh, rfl⟩)
        simp only [cacheGet, beq_eq_false_iff_ne.mpr hne, Bool.false_eq_true, if_false]
        exact ih hnd.2 hh

/-- The shape of the ledger across one try body: the body either leaves
it alone or deletes its own key (possibly twice, which is the same). -/
def CacheShape (src : Path) {α : Type} (m : M α) : Prop :=
  ∀ s : St, (m s).2.cache = s.cache ∨ (m s).2.cache = cacheDelete s.cache src

/-- Stateless computations keep the ledger shape. -/
theorem cacheShape_stateless {α : Type} (src : Path) {m : M α}
    (h : ∀ s, (m s).2 = s) : CacheShape src m := by
  intro s
  rw [h s]
  exact Or.inl rfl

/-- pure keeps the ledger shape. -/
theorem cacheShape_pure {α : Type} (src : Path) (a : α) :
    CacheShape src (pure a : M α) :=
  cacheShape_stateless src (fun _ => rfl)

/-- Ledger shapes compose along bind. -/
theorem cacheShape_bind {α β : Type} {src : Path} {x : M α} {f : α → M β}
    (hx : CacheShape src x) (hf : ∀ a, CacheShape src (f a)) :
    CacheShape src (x >>= f) := by
  intro s
  have hxs := hx s
  rw [bindM_eq]
  rcases h : x s with ⟨r, s1⟩
  rw [h] at hxs
  cases r with
  | error e => exact hxs
  | ok a =>
    have hfs := hf a s1
    rcases hfs with h2 | h2 <;> rcases hxs with h1 | h1
    · exact Or.inl (h2.trans h1)
    · exact Or.inr (h2.trans h1)
    · exact Or.inr (by rw [h2, h1])
    · rw [h2, h1, cacheDelete_idem]
      exact Or.inr rfl

/-- Ledger shapes pass through branches. -/
theorem cacheShape_ite {α : Type} (src : Path) (c : Prop) [Decidable c]
    {m1 m2 : M α} (h1 : CacheShape src m1) (h2 : CacheShape src m2) :
    CacheShape src (if c then m1 else m2) := by
  by_cases hc : c
  · simpa [hc] using h1
  · simpa [hc] using h2

/-- Primitives whose action keeps the ledger keep the shape. -/
theorem cacheShape_prim (src : Path) (op : Op) (act : St → Except String St)
    (hact : ∀ s s2, act s = Except.ok s2 → s2.cache = s.cache) :
    CacheShape src (prim op act) := by
  intro s
  unfold prim
  dsimp only []
  split
  · exact Or.inl rfl
  · match hact2 : act { s with trace := s.trace ++ [op], clock := s.clock + 1 } with
    | Except.error e => exact Or.inl rfl
    | Except.ok s2 =>
      exact Or.inl
        (hact { s with trace := s.trace ++ [op], clock := s.clock + 1 } s2 hact2)

/-- unlink keeps the ledger. -/
theorem cacheShape_unlinkPrim (src p : Path) : CacheShape src (unlinkPrim p) := by
  apply cacheShape_prim
  intro s s2 hact
  unfold unlinkAct at hact
  match hfd : s.fs p with
  | some (Entry.file c m) =>
    rw [hfd] at hact
    simp only [Except.ok.injEq] at hact
    rw [← hact]
  | some (Entry.symlink t) =>
    rw [hfd] at hact
    simp only [Except.ok.injEq] at hact
    rw [← hact]
  | some (Entry.dir l) => rw [hfd] at hact; simp at hact
  | none => rw [hfd] at hact; simp at hact

/-- makedirs keeps the ledger. -/
theorem cacheShape_makedirsPrim (src p : Path) : CacheShape src (makedirsPrim p) := by
  apply cacheShape_prim
  intro s s2 hact
  unfold makedirsAct at hact
  by_cases hd : isdir s.fs p = true
  · simp only [hd, if_true, Except.ok.injEq] at hact
    rw [← hact]
  · simp only [hd, Bool.false_eq_true, if_false] at hact
    match hfq : s.fs p with
    | some e => rw [hfq] at hact; simp at hact
    | none =>
      rw [hfq] at hact
      simp only [Except.ok.injEq] at hact
      rw [← hact]

/-- cp keeps the ledger. -/
theorem cacheShape_cpPrim (src a b : Path) : CacheShape src (cpPrim a b) := by
  apply cacheShape_prim
  intro s s2 hact
  unfold cpAct at hact
  match hfs : s.fs a with
  | none => rw [hfs] at hact; simp at hact
  | some e =>
    rw [hfs] at hact
    match hfd : s.fs b with
    | some e' =>
      rw [hfd] at hact
      simp only [Except.ok.injEq] at hact
      rw [← hact]
    | none =>
      rw [hfd] at hact
      simp only [Except.ok.injEq] at hact
      rw [← hact]

/-- clone_attrs keeps the ledger. -/
theorem cacheShape_clonePrim (src a b : Path) (fl : Bool) :
    CacheShape src (clonePrim a b fl) := by
  apply cacheShape_prim
  intro s s2 hact
  unfold cloneAct at hact
  match hfs : s.fs a, hfd : s.fs b with
  | some (Entry.file c1 m1), some (Entry.file c2 m2) =>
    rw [hfs, hfd] at hact
    by_cases hm : m1 = m2
    · simp only [hm, if_true, Except.ok.injEq] at hact
      rw [← hact]
    · simp only [hm, if_false, Except.ok.injEq] at hact
      rw [← hact]
  | some (Entry.file c1 m1), some (Entry.dir l) =>
    rw [hfs, hfd] at hact
    simp only [Except.ok.injEq] at hact
    rw [← hact]
  | some (Entry.file c1 m1), some (Entry.symlink t) =>
    rw [hfs, hfd] at hact
    simp only [Except.ok.injEq] at hact
    rw [← hact]
  | some (Entry.dir l), some e2 =>
    rw [hfs, hfd] at hact
    simp only [Except.ok.injEq] at hact
    rw [← hact]
  | some (Entry.symlink t), some e2 =>
    rw [hfs, hfd] at hact
    simp only [Except.ok.injEq] at hact
    rw [← hact]
  | some e1, none => rw [hfs, hfd] at hact; cases e1 <;> simp at hact
  | none, _ => rw [hfs] at hact; simp at hact

/-- The ledger delete on the own key realizes the delete shape. -/
theorem cacheShape_cacheDelM (src : Path) : CacheShape src (cacheDelM src) := by
  intro s
  exact Or.inr rfl

/-- The previous-failure block leaves the ledger alone or deletes the
own key. -/
theorem cacheShape_prevBlock (cfg : Cfg) (src dst : Path) (prev : Option ErrRec) :
    CacheShape src (prevBlock cfg src dst prev) := by
  cases prev with
  | none => exact cacheShape_pure src false
  | some pe =>
    unfold prevBlock
    apply cacheShape_ite
    · exact cacheShape_pure src true
    · apply cacheShape_bind (cacheShape_stateless src (fun s => rfl))
      intro b
      apply cacheShape_ite
      · apply cacheShape_bind (cacheShape_stateless src (fun s => rfl))
        intro lk
        apply cacheShape_bind (cacheShape_clonePrim src src dst (!lk))
        intro _
        apply cacheShape_bind (cacheShape_cacheDelM src)
        intro _
        exact cacheShape_pure src true
      · exact cacheShape_pure src false

/-- The compare-and-delete step leaves the ledger alone. -/
theorem cacheShape_compareStep (cfg : Cfg) (src dst : Path) :
    CacheShape src (compareStep cfg src dst) := by
  unfold compareStep
  apply cacheShape_bind (cacheShape_stateless src (fun s => rfl))
  intro f
  apply cacheShape_bind (cacheShape_stateless src (fun s => rfl))
  intro l
  apply cacheShape_ite
  · apply cacheShape_ite
    · apply cacheShape_bind (cacheShape_stateless src (fun s => rfl))
      intro cres
      apply cacheShape_ite
      · exact cacheShape_unlinkPrim src dst
      · exact cacheShape_pure src ()
    · exact cacheShape_pure src ()
  · exact cacheShape_pure src ()

/-- The create-or-copy step leaves the ledger alone. -/
theorem cacheShape_createStep (src dst : Path) :
    CacheShape src (createStep src dst) := by
  unfold createStep
  apply cacheShape_bind (cacheShape_stateless src (fun s => rfl))
  intro ex
  apply cacheShape_bind (cacheShape_stateless src (fun s => rfl))
  intro l2
  apply cacheShape_ite
  · apply cacheShape_bind (cacheShape_stateless src (fun s => rfl))
    intro d
    apply cacheShape_ite
    · exact cacheShape_makedirsPrim src dst
    · apply cacheShape_bind (cacheShape_makedirsPrim src (dirnameP dst))
      intro _
      exact cacheShape_cpPrim src src dst
  · exact cacheShape_pure src ()

/-- The success tail deletes the own key. -/
theorem cacheShape_finishStep (src dst : Path) :
    CacheShape src (finishStep src dst) := by
  unfold finishStep
  apply cacheShape_bind (cacheShape_stateless src (fun s => rfl))
  intro lk
  apply cacheShape_bind (cacheShape_clonePrim src src dst (!lk))
  intro _
  exact cacheShape_cacheDelM src

/-- The whole try body leaves the ledger alone or deletes its own key. -/
theorem cacheShape_tryBody (cfg : Cfg) (src dst : Path) (prev : Option ErrRec) :
    CacheShape src (tryBody cfg src dst prev) := by
  unfold tryBody
  apply cacheShape_bind (cacheShape_prevBlock cfg src dst prev)
  intro skip
  apply cacheShape_ite
  · exact cacheShape_pure src ()
  · apply cacheShape_bind (cacheShape_compareStep cfg src dst)
    intro _
    apply cacheShape_bind (cacheShape_createStep src dst)
    intro _
    exact cacheShape_finishStep src dst

/-- A successful success-tail always ends in prog_cache.delete, so the
own record is gone. -/
theorem finishStep_ok_cache (src dst : Path) (s s' : St) (a : Unit)
    (h : finishStep src dst s = (Except.ok a, s')) :
    cacheGet s'.cache src = none := by
  unfold finishStep at h
  rw [bindM_eq] at h
  rw [show islinkM dst s = (Except.ok (islink s.fs dst), s) from rfl] at h
  dsimp only [] at h
  rw [bindM_eq] at h
  rcases hc : clonePrim src dst (!islink s.fs dst) s with ⟨rc, sc⟩
  rw [hc] at h
  cases rc with
  | error e => simp at h
  | ok u =>
    dsimp only [] at h
    rw [show cacheDelM src sc
          = (Except.ok (), { sc with cache := cacheDelete sc.cache src }) from rfl] at h
    have hs' : s' = { sc with cache := cacheDelete sc.cache src } := by
      injection h with h1 h2
      exact h2.symm
    rw [hs']
    exact cacheGet_delete_self sc.cache src

/-- A successful try body over a record strictly below the cap always
deletes the own record: either the false-failure branch deleted it, or
the success tail did. -/
theorem tryBody_ok_deletes (cfg : Cfg) (src dst : Path) (pe : ErrRec)
    (s s' : St) (a : Unit) (hlt : pe.attempts < cfg.ATTEMPTS)
    (h : tryBody cfg src dst (some pe) s = (Except.ok a, s')) :
    cacheGet s'.cache src = none := by
  unfold tryBody at h
  rw [bindM_eq] at h
  rcases hpb : prevBlock cfg src dst (some pe) s with ⟨rb, sb⟩
  rw [hpb] at h
  cases rb with
  | error e => simp at h
  | ok skip =>
    dsimp only [] at h
    unfold prevBlock at hpb
    dsimp only [] at hpb
    rw [if_neg (by omega : ¬ cfg.ATTEMPTS ≤ pe.attempts)] at hpb
    rw [bindM_eq] at hpb
    rw [show cmpM src dst false s = (cmp s.fs src dst false, s) from rfl] at hpb
    rcases hcmp : cmp s.fs src dst false with e | b
    · rw [hcmp] at hpb
      simp at hpb
    · rw [hcmp] at hpb
      dsimp only [] at hpb
      cases b with
      | false =>
        rw [if_neg (by simp : ¬ (false = true)), pureM_eq] at hpb
        injection hpb with hb1 hb2
        injection hb1 with hskip
        subst hskip
        subst hb2
        rw [if_neg (by simp : ¬ (false = true))] at h
        rw [bindM_eq] at h
        rcases hcs : compareStep cfg src dst s with ⟨r1, s1⟩
        rw [hcs] at h
        cases r1 with
        | error e => simp at h
        | ok u1 =>
          dsimp only [] at h
          rw [bindM_eq] at h
          rcases hcr : createStep src dst s1 with ⟨r2, s2⟩
          rw [hcr] at h
          cases r2 with
          | error e => simp at h
          | ok u2 =>
            dsimp only [] at h
            exact finishStep_ok_cache src dst s2 s' a h
      | true =>
        rw [if_pos rfl] at hpb
        rw [bindM_eq] at hpb
        rw [show islinkM dst s = (Except.ok (islink s.fs dst), s) from rfl] at hpb
        dsimp only [] at hpb
        rw [bindM_eq] at hpb
        rcases hcl : clonePrim src dst (!islink s.fs dst) s with ⟨rc, sc⟩
        rw [hcl] at hpb
        cases rc with
        | error e => simp at hpb
        | ok u =>
          dsimp only [] at hpb
          rw [bindM_eq] at hpb
          rw [show cacheDelM src sc
                = (Except.ok (), { sc with cache := cacheDelete sc.cache src })
              from rfl] at hpb
          dsimp only [] at hpb
          rw [pureM_eq] at hpb
          injection hpb with hb1 hb2
          injection hb1 with hskip
          subst hskip
          rw [if_pos rfl, pureM_eq] at h
          injection h with h1 h2
          rw [← h2, ← hb2]
          exact cacheGet_delete_self sc.cache src

/-- The retry termination measure: total remaining attempts across the
ledger. -/
def cacheMeasure (c : Cache) (A : Nat) : Nat :=
  (c.map (fun kv => A - kv.2.attempts)).sum

/-- Deleting an absent key does nothing. -/
theorem cacheDelete_of_not_mem (c : Cache) (k : Path)
    (h : k ∉ cacheKeys c) : cacheDelete c k = c := by
  induction c with
  | nil => rfl
  | cons kv rest ih =>
    cases kv with
    | mk k' v' =>
      unfold cacheKeys at h
      rw [List.map_cons, List.mem_cons] at h
      push_neg at h
      have hne : k' ≠ k := fun he => h.1 he.symm
      simp only [cacheDelete, List.filter, beq_eq_false_iff_ne.mpr hne, Bool.not_false]
      rw [show List.filter (fun kv => !(kv.1 == k)) rest = cacheDelete rest k from rfl]
      rw [ih h.2]

/-- Removing a stored record removes exactly its contribution. -/
theorem measure_delete (c : Cache) (k : Path) (r : ErrRec) (A : Nat)
    (hnd : nodupKeys c) (h : cacheGet c k = some r) :
    cacheMeasure (cacheDelete c k) A + (A - r.attempts) = cacheMeasure c A := by
  induction c with
  | nil => simp [cacheGet] at h
  | cons kv rest ih =>
    cases kv with
    | mk k' v' =>
      unfold nodupKeys cacheKeys at hnd
      rw [List.map_cons, List.nodup_cons] at hnd
      by_cases hk : k' = k
      · subst hk
        simp only [cacheGet, beq_self_eq_true, if_true, Option.some.injEq] at h
        subst h
        simp only [cacheDelete, List.filter, beq_self_eq_true, Bool.not_true]
        rw [show List.filter (fun kv => !(kv.1 == k')) rest = cacheDelete rest k' from rfl]
        rw [cacheDelete_of_not_mem rest k' hnd.1]
        simp [cacheMeasure]
        omega
      · simp only [cacheGet, beq_eq_false_iff_ne.mpr hk, Bool.false_eq_true,
          if_false] at h
        simp only [cacheDelete, List.filter, beq_eq_false_iff_ne.mpr hk, Bool.not_false]
        rw [show List.filter (fun kv => !(kv.1 == k)) rest = cacheDelete rest k from rfl]
        have := ih hnd.2 h
        simp only [cacheMeasure, List.map_cons, List.sum_cons] at this ⊢
        omega

/-- Replacing a stored record swaps its contribution. -/
theorem measure_set_replace (c : Cache) (k : Path) (r : ErrRec) (v : ErrRec)
    (A : Nat) (h : cacheGet c k = some r) :
    cacheMeasure (cacheSet c k v) A + (A - r.attempts)
      = cacheMeasure c A + (A - v.attempts) := by
  induction c with
  | nil => simp [cacheGet] at h
  | cons kv rest ih =>
    cases kv with
    | mk k' v' =>
      by_cases hk : k' = k
      · subst hk
        simp only [cacheGet, beq_self_eq_true, if_true, Option.some.injEq] at h
        subst h
        simp only [cacheSet, beq_self_eq_true, if_true]
        simp [cacheMeasure]
        omega
      · simp only [cacheGet, beq_eq_false_iff_ne.mpr hk, Bool.false_eq_true,
          if_false] at h
        simp only [cacheSet, beq_eq_false_iff_ne.mpr hk, Bool.false_eq_true, if_false]
        have := ih h
        simp only [cacheMeasure, List.map_cons, List.sum_cons] at this ⊢
        omega

/-- Appending a fresh record adds exactly its contribution. -/
theorem measure_set_new (c : Cache) (k : Path) (v : ErrRec) (A : Nat)
    (h : cacheGet c k = none) :
    cacheMeasure (cacheSet c k v) A = cacheMeasure c A + (A - v.attempts) := by
  induction c with
  | nil => simp [cacheSet, cacheMeasure]
  | cons kv rest ih =>
    cases kv with
    | mk k' v' =>
      by_cases hk : k' = k
      · subst hk
        simp [cacheGet] at h
      · simp only [cacheGet, beq_eq_false_iff_ne.mpr hk, Bool.false_eq_true,
          if_false] at h
        simp only [cacheSet, beq_eq_false_iff_ne.mpr hk, Bool.false_eq_true, if_false]
        have := ih h
        simp only [cacheMeasure, List.map_cons, List.sum_cons] at this ⊢
        omega

/-- One retried pair (record present, strictly below the cap) strictly
decreases the measure: success and false-failure delete the record,
failure bumps its attempts. -/
theorem pairStep_retry_measure (cfg : Cfg) (src dst : Path) (errs : List Path)
    (s : St) (pe : ErrRec) (hnd : nodupKeys s.cache)
    (hpe : cacheGet s.cache src = some pe) (hlt : pe.attempts < cfg.ATTEMPTS) :
    cacheMeasure (pairStep cfg src dst errs s).2.cache cfg.ATTEMPTS + 1
      ≤ cacheMeasure s.cache cfg.ATTEMPTS := by
  unfold pairStep
  dsimp only []
  have hshape := cacheShape_tryBody cfg src dst (cacheGet s.cache src) s
  rcases h : tryBody cfg src dst (cacheGet s.cache src) s with ⟨res, s'⟩
  rw [h] at hshape
  cases res with
  | ok a =>
    rw [hpe] at h
    have hdel := tryBody_ok_deletes cfg src dst pe s s' a hlt h
    rcases hshape with hsh | hsh
    · rw [hsh, hpe] at hdel
      cases hdel
    · dsimp only []
      rw [hsh]
      have hd := measure_delete s.cache src pe cfg.ATTEMPTS hnd hpe
      omega
  | error e =>
    dsimp only []
    rw [hpe]
    dsimp only []
    rw [if_pos hlt]
    dsimp only []
    rcases hshape with hsh | hsh
    · rw [hsh]
      have h1 := measure_set_replace s.cache src pe
        { pe with attempts := pe.attempts + 1 } cfg.ATTEMPTS hpe
      simp only [] at h1
      omega
    · rw [hsh]
      have h1 := measure_set_new (cacheDelete s.cache src) src
        { pe with attempts := pe.attempts + 1 } cfg.ATTEMPTS
        (cacheGet_delete_self s.cache src)
      have h2 := measure_delete s.cache src pe cfg.ATTEMPTS hnd hpe
      simp only [] at h1
      omega

/-- One pair step preserves ledger well-formedness. -/
theorem pairStep_cache_wf (cfg : Cfg) (src dst : Path) (errs : List Path)
    (s : St) (hnd : nodupKeys s.cache) (hko : keyedOK s.cache) :
    nodupKeys (pairStep cfg src dst errs s).2.cache
    ∧ keyedOK (pairStep cfg src dst errs s).2.cache := by
  unfold pairStep
  dsimp only []
  have hshape := cacheShape_tryBody cfg src dst (cacheGet s.cache src) s
  rcases h : tryBody cfg src dst (cacheGet s.cache src) s with ⟨res, s'⟩
  rw [h] at hshape
  have hwf' : nodupKeys s'.cache ∧ keyedOK s'.cache := by
    rcases hshape with hsh | hsh
    · rw [hsh]; exact ⟨hnd, hko⟩
    · rw [hsh]; exact ⟨nodupKeys_delete _ _ hnd, keyedOK_delete _ _ hko⟩
  cases res with
  | ok a => exact hwf'
  | error e =>
    cases hprev : cacheGet s.cache src with
    | none =>
      exact ⟨nodupKeys_set _ _ _ hwf'.1, keyedOK_set _ _ _ hwf'.2 rfl⟩
    | some pe =>
      dsimp only []
      by_cases hc : pe.attempts < cfg.ATTEMPTS
      · rw [if_pos hc]
        have hsrc : pe.src = src := hko (src, pe) (cacheGet_mem s.cache src pe hprev)
        exact ⟨nodupKeys_set _ _ _ hwf'.1, keyedOK_set _ _ _ hwf'.2 hsrc⟩
      · rw [if_neg hc]
        exact hwf'

/-- Ledger well-formedness is preserved by whole batches. -/
theorem cpLsGo_cache_wf (cfg : Cfg) :
    ∀ (pairs : List (Path × Path)) (idx : Nat) (errs : List Path) (s : St),
      nodupKeys s.cache → keyedOK s.cache →
      nodupKeys ((cpLsGo cfg pairs idx errs s).2.2).cache
      ∧ keyedOK ((cpLsGo cfg pairs idx errs s).2.2).cache := by
  intro pairs
  induction pairs with
  | nil => intro idx errs s hnd hko; exact ⟨hnd, hko⟩
  | cons hd tl ih =>
    intro idx errs s hnd hko
    cases hd with
    | mk src dst =>
      obtain ⟨h1, h2⟩ := pairStep_cache_wf cfg src dst errs s hnd hko
      exact ih (idx + 1) (pairStep cfg src dst errs s).1
        (pairStep cfg src dst errs s).2 h1 h2

/-- A batch of retried pairs (each with a stored below-cap record,
pairwise distinct sources) decreases the measure by at least its
length. -/
theorem cpLsGo_retry_measure (cfg : Cfg) :
    ∀ (pairs : List (Path × Path)) (idx : Nat) (errs : List Path) (s : St),
      nodupKeys s.cache → keyedOK s.cache →
      (∀ pr, pr ∈ pairs →
        ∃ r, cacheGet s.cache (pr : Path × Path).1 = some r
          ∧ r.attempts < cfg.ATTEMPTS) →
      (pairs.map Prod.fst).Nodup →
      cacheMeasure ((cpLsGo cfg pairs idx errs s).2.2).cache cfg.ATTEMPTS
          + pairs.length
        ≤ cacheMeasure s.cache cfg.ATTEMPTS := by
  intro pairs
  induction pairs with
  | nil => intro idx errs s _ _ _ _; simp [cpLsGo]
  | cons hd tl ih =>
    intro idx errs s hnd hko hsel hnodup
    cases hd with
    | mk src dst =>
      obtain ⟨r, hr, hrlt⟩ := hsel (src, dst) (List.mem_cons_self _ _)
      have hdec := pairStep_retry_measure cfg src dst errs s r hnd hr hrlt
      obtain ⟨hw1, hw2⟩ := pairStep_cache_wf cfg src dst errs s hnd hko
      rw [List.map_cons, List.nodup_cons] at hnodup
      obtain ⟨_, _, hco, _, _, _⟩ := pairStep_frame cfg src dst errs s
      have hsel' : ∀ pr, pr ∈ tl →
          ∃ r2, cacheGet (pairStep cfg src dst errs s).2.cache
              (pr : Path × Path).1 = some r2 ∧ r2.attempts < cfg.ATTEMPTS := by
        intro pr hpr
        obtain ⟨r2, hr2, hlt2⟩ := hsel pr (List.mem_cons_of_mem _ hpr)
        have hne : (pr : Path × Path).1 ≠ src := by
          intro he
          exact hnodup.1 (he ▸ List.mem_map.mpr ⟨pr, hpr, rfl⟩)
        rw [hco pr.1 hne]
        exact ⟨r2, hr2, hlt2⟩
      have := ih (idx + 1) (pairStep cfg src dst errs s).1
        (pairStep cfg src dst errs s).2 hw1 hw2 hsel' hnodup.2
      simp only [cpLsGo, List.length_cons]
      omega

/-- Both retry lists have the length of the selected record list. -/
theorem retries_length (c : Cache) (A : Nat) :
    (srcRetries c A).length = (dstRetries c A).length := by
  simp [srcRetries, dstRetries]

/-- The retry pairs are exactly the selected records' (src, dst)
fields, in order. -/
theorem retries_zip (c : Cache) (A : Nat) :
    (srcRetries c A).zip (dstRetries c A)
      = (retryRecs c A).map (fun r => (r.src, r.dst)) := by
  unfold srcRetries dstRetries
  rw [List.zip_map']

/-- Every selected retry source has a stored below-cap record under its
own key, given a well-formed ledger. -/
theorem retrySel (c : Cache) (A : Nat) (hnd : nodupKeys c) (hko : keyedOK c) :
    ∀ pr, pr ∈ (srcRetries c A).zip (dstRetries c A) →
      ∃ r, cacheGet c (pr : Path × Path).1 = some r ∧ r.attempts < A := by
  intro pr hpr
  cases pr with
  | mk a b =>
    have hmem := (List.of_mem_zip hpr).1
    obtain ⟨r2, hr2mem, hr2lt, hr2src⟩ := srcRetries_below_cap c A a hmem
    rcases List.mem_map.mp hr2mem with ⟨kv, hkv, hsnd⟩
    have hkey : kv.2.src = kv.1 := hko kv hkv
    have hkv2 : kv = (a, r2) := by
      cases kv with
      | mk k v =>
        simp only [] at hsnd hkey
        subst hsnd
        rw [← hkey, hr2src]
    rw [hkv2] at hkv
    exact ⟨r2, mem_cacheGet c a r2 hnd hkv, hr2lt⟩

/-- With key-matching records, mapping out the src fields gives the
keys. -/
theorem keys_eq_src_map :
    ∀ (c : Cache), keyedOK c →
      (c.map Prod.snd).map ErrRec.src = cacheKeys c := by
  intro c
  induction c with
  | nil => intro _; rfl
  | cons kv rest ih =>
    intro hko
    unfold cacheKeys
    rw [List.map_cons, List.map_cons, List.map_cons]
    rw [show ErrRec.src kv.2 = kv.1 from hko kv (List.mem_cons_self _ _)]
    rw [show List.map ErrRec.src (List.map Prod.snd rest) = cacheKeys rest from
      ih (fun kv2 hkv2 => hko kv2 (List.mem_cons_of_mem _ hkv2))]
    rfl

/-- The selected retry sources are pairwise distinct, given a
well-formed ledger. -/
theorem srcRetries_nodup (c : Cache) (A : Nat) (hnd : nodupKeys c)
    (hko : keyedOK c) : (srcRetries c A).Nodup := by
  have hsub : List.Sublist (srcRetries c A) ((c.map Prod.snd).map ErrRec.src) := by
    unfold srcRetries retryRecs
    exact List.Sublist.map ErrRec.src (List.filter_sublist (c.map Prod.snd))
  rw [keys_eq_src_map c hko] at hsub
  exact List.Nodup.sublist hsub hnd

/-- One non-empty retry pass preserves ledger well-formedness and
strictly decreases the measure. -/
theorem retryPass (cfg : Cfg) (s : St) (hnd : nodupKeys s.cache)
    (hko : keyedOK s.cache)
    (hne : ¬ (srcRetries s.cache cfg.ATTEMPTS).length = 0) :
    nodupKeys (copy_with_progress cfg (srcRetries s.cache cfg.ATTEMPTS)
        (dstRetries s.cache cfg.ATTEMPTS) s).2.cache
    ∧ keyedOK (copy_with_progress cfg (srcRetries s.cache cfg.ATTEMPTS)
        (dstRetries s.cache cfg.ATTEMPTS) s).2.cache
    ∧ cacheMeasure (copy_with_progress cfg (srcRetries s.cache cfg.ATTEMPTS)
          (dstRetries s.cache cfg.ATTEMPTS) s).2.cache cfg.ATTEMPTS + 1
        ≤ cacheMeasure s.cache cfg.ATTEMPTS := by
  unfold copy_with_progress
  rw [if_neg hne]
  dsimp only []
  unfold cp_ls
  have hnodup : (((srcRetries s.cache cfg.ATTEMPTS).zip
      (dstRetries s.cache cfg.ATTEMPTS)).map Prod.fst).Nodup := by
    rw [List.map_fst_zip _ _ (le_of_eq (retries_length s.cache cfg.ATTEMPTS))]
    exact srcRetries_nodup s.cache cfg.ATTEMPTS hnd hko
  have hwf := cpLsGo_cache_wf cfg
    ((srcRetries s.cache cfg.ATTEMPTS).zip (dstRetries s.cache cfg.ATTEMPTS))
    1 [] s hnd hko
  have hm := cpLsGo_retry_measure cfg
    ((srcRetries s.cache cfg.ATTEMPTS).zip (dstRetries s.cache cfg.ATTEMPTS))
    1 [] s hnd hko (retrySel s.cache cfg.ATTEMPTS hnd hko) hnodup
  have hlen : ((srcRetries s.cache cfg.ATTEMPTS).zip
      (dstRetries s.cache cfg.ATTEMPTS)).length
      = (srcRetries s.cache cfg.ATTEMPTS).length := by
    rw [List.length_zip, retries_length s.cache cfg.ATTEMPTS]
    simp
  exact ⟨hwf.1, hwf.2, by omega⟩

/-- The retry loop terminates within measure-plus-one passes on a
well-formed ledger. -/
theorem retryLoop_terminates (cfg : Cfg) :
    ∀ (n : Nat) (s : St), nodupKeys s.cache → keyedOK s.cache →
      cacheMeasure s.cache cfg.ATTEMPTS ≤ n →
      ∃ s', retryLoop cfg (n + 1) s = some s' := by
  intro n
  induction n with
  | zero =>
    intro s hnd hko hm
    unfold retryLoop
    dsimp only []
    by_cases he : (copy_with_progress cfg (srcRetries s.cache cfg.ATTEMPTS)
        (dstRetries s.cache cfg.ATTEMPTS) s).1.isEmpty = true
    · rw [if_pos he]
      exact ⟨_, rfl⟩
    · exfalso
      by_cases hlen : (srcRetries s.cache cfg.ATTEMPTS).length = 0
      · exact he (by simp [copy_with_progress, hlen])
      · have := (retryPass cfg s hnd hko hlen).2.2
        omega
  | succ m ih =>
    intro s hnd hko hm
    unfold retryLoop
    dsimp only []
    by_cases he : (copy_with_progress cfg (srcRetries s.cache cfg.ATTEMPTS)
        (dstRetries s.cache cfg.ATTEMPTS) s).1.isEmpty = true
    · rw [if_pos he]
      exact ⟨_, rfl⟩
    · rw [if_neg he]
      have hlen : ¬ (srcRetries s.cache cfg.ATTEMPTS).length = 0 := by
        intro h0
        exact he (by simp [copy_with_progress, h0])
      obtain ⟨hw1, hw2, hw3⟩ := retryPass cfg s hnd hko hlen
      exact ih _ hw1 hw2 (by omega)

/-- C7: the Retry Orchestrator selects exactly the stored records with
attempts strictly below the cap (as parallel (src, dst) lists in record
order), terminates at once on an empty selection, and, on a well-formed
ledger (distinct keys, records keyed by their own source), terminates
within measure-plus-one passes because every non-empty failing pass
strictly decreases the total remaining attempts. -/
theorem retry_orchestrator :
    ∀ (cfg : Cfg) (c : Cache) (s : St) (p : Path),
      (p ∈ srcRetries c cfg.ATTEMPTS
        ↔ ∃ r, r ∈ c.map Prod.snd ∧ r.attempts < cfg.ATTEMPTS ∧ r.src = p)
      ∧ ((srcRetries c cfg.ATTEMPTS).zip (dstRetries c cfg.ATTEMPTS)
          = (retryRecs c cfg.ATTEMPTS).map (fun r => (r.src, r.dst)))
      ∧ (srcRetries s.cache cfg.ATTEMPTS = [] → retryLoop cfg 1 s = some s)
      ∧ (nodupKeys s.cache → keyedOK s.cache →
          ∃ s', retryLoop cfg (cacheMeasure s.cache cfg.ATTEMPTS + 1) s = some s') := by
  intro cfg c s p
  refine ⟨⟨srcRetries_below_cap c cfg.ATTEMPTS p, ?_⟩,
    retries_zip c cfg.ATTEMPTS, ?_, ?_⟩
  · rintro ⟨r, hmem, hlt, hsrc⟩
    unfold srcRetries retryRecs
    exact List.mem_map.mpr ⟨r, List.mem_filter.mpr ⟨hmem, by simpa using hlt⟩, hsrc⟩
  · intro h0
    unfold retryLoop
    dsimp only []
    rw [h0]
    rfl
  · intro hnd hko
    exact retryLoop_terminates cfg (cacheMeasure s.cache cfg.ATTEMPTS) s hnd hko
      (Nat.le_refl _)

/-- Witness for C7 at a concrete input: a ledger whose single record is
at the cap selects nothing, and the loop stops at once with the state
unchanged. -/
theorem retry_orchestrator_witness :
    retryLoop wCfg 1 capSt = some capSt :=
  (retry_orchestrator wCfg capSt.cache capSt (str "/s/a")).2.2.1 (by decide)

/-! ### Idempotence of a second run

The second-run analysis works on symlink-free filesystems, where symlink
resolution is the identity and the comparator reads only the two entries
it is given. -/

/-- On a symlink-free filesystem, resolution is direct lookup. -/
theorem resolveEntry_noSym {fs : FS} (hn : NoSym fs) (n : Nat) (p : Path) :
    resolveEntry fs (n + 1) p = fs p := by
  unfold resolveEntry
  match hfp : fs p with
  | some (Entry.file c m) => rfl
  | some (Entry.dir l) => rfl
  | some (Entry.symlink t) => exact absurd hfp (hn p t)
  | none => rfl

/-- No symlinks means no islink verdicts. -/
theorem islink_noSym {fs : FS} (hn : NoSym fs) (p : Path) :
    islink fs p = false := by
  unfold islink
  match hfp : fs p with
  | some (Entry.file c m) => rfl
  | some (Entry.dir l) => rfl
  | some (Entry.symlink t) => exact absurd hfp (hn p t)
  | none => rfl

/-- FUEL unfolds once. -/
theorem FUEL_succ : FUEL = 39 + 1 := rfl

/-- isfile on a symlink-free filesystem is a direct entry test. -/
theorem isfile_noSym {fs : FS} (hn : NoSym fs) (p : Path) :
    isfile fs p = (match fs p with
      | some (Entry.file _ _) => true
      | _ => false) := by
  unfold isfile
  rw [FUEL_succ, resolveEntry_noSym hn]

/-- isdir on a symlink-free filesystem is a direct entry test. -/
theorem isdir_noSym {fs : FS} (hn : NoSym fs) (p : Path) :
    isdir fs p = (match fs p with
      | some (Entry.dir _) => true
      | _ => false) := by
  unfold isdir
  rw [FUEL_succ, resolveEntry_noSym hn]

/-- exists on a symlink-free filesystem is entry presence. -/
theorem pathExists_noSym {fs : FS} (hn : NoSym fs) (p : Path) :
    pathExists fs p = (fs p).isSome := by
  unfold pathExists
  rw [FUEL_succ, resolveEntry_noSym hn]

/-- The comparator on two regular files of a symlink-free filesystem is
the file comparison of their data. -/
theorem cmp_files_eval {fs : FS} (hn : NoSym fs) {src dst : Path}
    {c1 c2 : List Nat} {m1 m2 : Nat} (hs : fs src = some (Entry.file c1 m1))
    (hd : fs dst = some (Entry.file c2 m2)) (sh : Bool) :
    cmp fs src dst sh = Except.ok (filecmpFiles sh c1 m1 c2 m2) := by
  unfold cmp
  have hl : paths_are (islink fs) [src, dst] allF = false := by
    simp [paths_are, allF, islink_noSym hn]
  have hf : paths_are (isfile fs) [src, dst] allF = true := by
    simp [paths_are, allF, isfile_noSym hn, hs, hd]
  rw [hl, hf]
  simp only [Bool.false_eq_true, if_false, if_true]
  unfold filecmpE
  rw [FUEL_succ, resolveEntry_noSym hn, resolveEntry_noSym hn, hs, hd]

/-- A comparator verdict of true against a regular file forces the other
side to be a regular file too (symlink-free filesystems). -/
theorem cmp_true_src_file {fs : FS} (hn : NoSym fs) {src dst : Path}
    {c2 : List Nat} {m2 : Nat} {sh : Bool}
    (hd : fs dst = some (Entry.file c2 m2))
    (h : cmp fs src dst sh = Except.ok true) :
    ∃ c1 m1, fs src = some (Entry.file c1 m1) := by
  match hfs : fs src with
  | some (Entry.file c1 m1) => exact ⟨c1, m1, rfl⟩
  | some (Entry.symlink t) => exact absurd hfs (hn src t)
  | some (Entry.dir l) =>
    exfalso
    unfold cmp at h
    have hl : paths_are (islink fs) [src, dst] allF = false := by
      simp [paths_are, allF, islink_noSym hn]
    have hf : paths_are (isfile fs) [src, dst] allF = false := by
      simp [paths_are, allF, isfile_noSym hn, hfs]
    have hdd : paths_are (isdir fs) [src, dst] allF = false := by
      simp [paths_are, allF, isdir_noSym hn, hd]
    rw [hl, hf, hdd] at h
    simp at h
  | none =>
    exfalso
    unfold cmp at h
    have hl : paths_are (islink fs) [src, dst] allF = false := by
      simp [paths_are, allF, islink_noSym hn]
    have hf : paths_are (isfile fs) [src, dst] allF = false := by
      simp [paths_are, allF, isfile_noSym hn, hfs]
    have hdd : paths_are (isdir fs) [src, dst] allF = false := by
      simp [paths_are, allF, isdir_noSym hn, hfs]
    rw [hl, hf, hdd] at h
    simp at h

/-- File comparison is reflexive. -/
theorem filecmpFiles_refl (sh : Bool) (c : List Nat) (m : Nat) :
    filecmpFiles sh c m c m = true := by
  unfold filecmpFiles
  cases sh <;> simp

/-- A positive file comparison survives equalizing the destination
mtime with the source one. -/
theorem filecmpFiles_clone {sh : Bool} {c1 c2 : List Nat} {m1 m2 : Nat}
    (h : filecmpFiles sh c1 m1 c2 m2 = true) :
    filecmpFiles sh c1 m1 c2 m1 = true := by
  unfold filecmpFiles at h ⊢
  cases sh
  · simp only [Bool.false_and, Bool.false_eq_true, if_false] at h ⊢
    exact h
  · by_cases hlen : c1.length = c2.length
    · simp [hlen]
    · rw [beq_eq_false_iff_ne.mpr hlen] at h
      simp at h
      exact absurd h.1 hlen

/-- The observable effect of a no-op clone: both entries present and,
for two regular files, equal mtimes. -/
def cloneNoop (fs : FS) (src dst : Path) : Bool :=
  match fs src, fs dst with
  | some (Entry.file _ m1), some (Entry.file _ m2) => m1 == m2
  | some _, some _ => true
  | _, _ => false

/-- A steady pair: the destination exists, a file destination compares
equivalent under comparison mode, and the attribute clone has nothing to
write.  A steady pair is processed by cp_ls without touching the
filesystem or the ledger, and in particular without any bulk copy. -/
def steadyPair (cfg : Cfg) (fs : FS) (src dst : Path) : Prop :=
  (∃ e, fs dst = some e)
  ∧ (∀ c2 m2, fs dst = some (Entry.file c2 m2) → cfg.compare = true →
      cmp fs src dst cfg.shallow = Except.ok true)
  ∧ cloneNoop fs src dst = true

/-- With an empty fault schedule a primitive runs its action directly
(recording the op and advancing the clock). -/
theorem prim_noFault (op : Op) (act : St → Except String St) (s : St)
    (hf : s.faults = []) :
    prim op act s =
      (match act { s with trace := s.trace ++ [op], clock := s.clock + 1 } with
       | Except.ok s2 => (Except.ok (), s2)
       | Except.error e =>
         (Except.error e, { s with trace := s.trace ++ [op], clock := s.clock + 1 })) := by
  unfold prim
  dsimp only []
  rw [hf]
  rfl

/-- On a symlink-free filesystem the comparator never raises. -/
theorem cmp_noSym_no_error {fs : FS} (hn : NoSym fs) (src dst : Path) (sh : Bool) :
    ∃ b, cmp fs src dst sh = Except.ok b := by
  unfold cmp
  have hl : paths_are (islink fs) [src, dst] allF = false := by
    simp [paths_are, allF, islink_noSym hn]
  rw [hl]
  simp only [Bool.false_eq_true, if_false]
  by_cases hf : paths_are (isfile fs) [src, dst] allF = true
  · rw [if_pos hf]
    obtain ⟨h1, h2⟩ := paths_are_all_two hf
    rw [isfile_noSym hn] at h1 h2
    unfold filecmpE
    rw [FUEL_succ, resolveEntry_noSym hn, resolveEntry_noSym hn]
    match hs : fs src, hd : fs dst with
    | some (Entry.file c1 m1), some (Entry.file c2 m2) =>
      exact ⟨_, rfl⟩
    | some (Entry.file c1 m1), some (Entry.dir l) => rw [hd] at h2; simp at h2
    | some (Entry.file c1 m1), some (Entry.symlink t) => exact absurd hd (hn dst t)
    | some (Entry.file c1 m1), none => rw [hd] at h2; simp at h2
    | some (Entry.dir l), _ => rw [hs] at h1; simp at h1
    | some (Entry.symlink t), _ => exact absurd hs (hn src t)
    | none, _ => rw [hs] at h1; simp at h1
  · rw [if_neg hf]
    by_cases hd : paths_are (isdir fs) [src, dst] allF = true
    · rw [if_pos hd]
      obtain ⟨h1, h2⟩ := paths_are_all_two hd
      rw [isdir_noSym hn] at h1 h2
      unfold dircmpE
      rw [FUEL_succ, resolveEntry_noSym hn, resolveEntry_noSym hn]
      match hs : fs src, hdd : fs dst with
      | some (Entry.dir la), some (Entry.dir lb) => exact ⟨_, rfl⟩
      | some (Entry.dir la), some (Entry.file c m) => rw [hdd] at h2; simp at h2
      | some (Entry.dir la), some (Entry.symlink t) => exact absurd hdd (hn dst t)
      | some (Entry.dir la), none => rw [hdd] at h2; simp at h2
      | some (Entry.file c m), _ => rw [hs] at h1; simp at h1
      | some (Entry.symlink t), _ => exact absurd hs (hn src t)
      | none, _ => rw [hs] at h1; simp at h1
    · rw [if_neg hd]
      exact ⟨false, rfl⟩

/-- The compare-and-delete step under an empty fault schedule on a
symlink-free filesystem: it always succeeds, leaves the ledger and
faults alone, and either does nothing to the filesystem — in which case
a file destination under comparison mode must have compared equivalent —
or deletes a file destination that compared non-equivalent. -/
theorem compareStep_spec (cfg : Cfg) (src dst : Path) (s : St)
    (hf : s.faults = []) (hn : NoSym s.fs) :
    ∃ s1, compareStep cfg src dst s = (Except.ok (), s1)
      ∧ s1.cache = s.cache ∧ s1.faults = s.faults
      ∧ ((s1 = s
            ∧ (∀ c2 m2, s.fs dst = some (Entry.file c2 m2) → cfg.compare = true →
                cmp s.fs src dst cfg.shallow = Except.ok true))
         ∨ (∃ c2 m2, s.fs dst = some (Entry.file c2 m2) ∧ cfg.compare = true
              ∧ cmp s.fs src dst cfg.shallow = Except.ok false
              ∧ s1.fs = fsRemove s.fs dst)) := by
  unfold compareStep
  rw [bindM_eq]
  rw [show isfileM dst s = (Except.ok (isfile s.fs dst), s) from rfl]
  dsimp only []
  rw [bindM_eq]
  rw [show islinkM dst s = (Except.ok (islink s.fs dst), s) from rfl]
  dsimp only []
  rw [islink_noSym hn, isfile_noSym hn]
  match hd : s.fs dst with
  | some (Entry.symlink t) => exact absurd hd (hn dst t)
  | some (Entry.dir l) =>
    refine ⟨s, ?_, rfl, rfl, Or.inl ⟨rfl, ?_⟩⟩
    · rw [if_neg (by simp)]
      rfl
    · intro c2 m2 heq
      exact absurd heq (by simp)
  | none =>
    refine ⟨s, ?_, rfl, rfl, Or.inl ⟨rfl, ?_⟩⟩
    · rw [if_neg (by simp)]
      rfl
    · intro c2 m2 heq
      exact absurd heq (by simp)
  | some (Entry.file c2 m2) =>
    rw [if_pos (by simp)]
    rcases hcompare : cfg.compare with _ | _
    · refine ⟨s, ?_, rfl, rfl, Or.inl ⟨rfl, ?_⟩⟩
      · rw [if_neg (by simp)]
        rfl
      · intro c2' m2' _ hc
        exact absurd hc (by simp)
    · rw [if_pos rfl]
      rw [bindM_eq]
      rw [show cmpM src dst cfg.shallow s = (cmp s.fs src dst cfg.shallow, s) from rfl]
      obtain ⟨b, hb⟩ := cmp_noSym_no_error hn src dst cfg.shallow
      rw [hb]
      dsimp only []
      cases b with
      | true =>
        refine ⟨s, ?_, rfl, rfl, Or.inl ⟨rfl, ?_⟩⟩
        · rw [if_neg (by simp)]
          rfl
        · intro c2' m2' _ _
          rfl
      | false =>
        rw [if_pos (by simp)]
        have hact : unlinkAct dst
            { s with trace := s.trace ++ [Op.unlinkOp dst], clock := s.clock + 1 }
            = Except.ok { s with
                fs := fsRemove s.fs dst,
                trace := s.trace ++ [Op.unlinkOp dst],
                clock := s.clock + 1 } := by
          unfold unlinkAct
          dsimp only []
          rw [hd]
        rw [show unlinkPrim dst s
              = prim (Op.unlinkOp dst) (unlinkAct dst) s from rfl]
        rw [prim_noFault _ _ s hf]
        rw [hact]
        exact ⟨_, rfl, rfl, rfl, Or.inr ⟨c2, m2, rfl, rfl, rfl, rfl⟩⟩

/-- Steadiness as a test on the two stored entries alone: no symlinks
involved, both present, equal mtimes and (under comparison mode) a
positive file comparison for a file pair, and no file destination under
comparison mode unless the source is a file too. -/
def steadyE (compare sh : Bool) : Option Entry → Option Entry → Bool
  | some (Entry.symlink _), _ => false
  | _, some (Entry.symlink _) => false
  | some (Entry.file c1 m1), some (Entry.file c2 m2) =>
    (m1 == m2) && (!compare || filecmpFiles sh c1 m1 c2 m2)
  | some _, some (Entry.file _ _) => !compare
  | some _, some _ => true
  | _, _ => false

/-- Entry-local steadiness of a pair under a filesystem. -/
def steadyB (cfg : Cfg) (fs : FS) (src dst : Path) : Bool :=
  steadyE cfg.compare cfg.shallow (fs src) (fs dst)

/-- Entry-local steadiness implies the abstract steady-pair property on
a symlink-free filesystem. -/
theorem steadyB_steadyPair {cfg : Cfg} {fs : FS} {src dst : Path}
    (hn : NoSym fs) (h : steadyB cfg fs src dst = true) :
    steadyPair cfg fs src dst := by
  unfold steadyB at h
  refine ⟨?_, ?_, ?_⟩
  · match hd : fs dst with
    | some e => exact ⟨e, rfl⟩
    | none =>
      rw [hd] at h
      exfalso
      match hs : fs src with
      | some (Entry.file c1 m1) => rw [hs] at h; simp [steadyE] at h
      | some (Entry.dir l) => rw [hs] at h; simp [steadyE] at h
      | some (Entry.symlink t) => exact absurd hs (hn src t)
      | none => rw [hs] at h; simp [steadyE] at h
  · intro c2 m2 hdf hcomp
    rw [hdf] at h
    match hs : fs src with
    | some (Entry.file c1 m1) =>
      rw [hs] at h
      simp only [steadyE, hcomp, Bool.not_true, Bool.false_or,
        Bool.and_eq_true] at h
      rw [cmp_files_eval hn hs hdf cfg.shallow, h.2]
    | some (Entry.dir l) =>
      rw [hs] at h
      simp [steadyE, hcomp] at h
    | some (Entry.symlink t) => exact absurd hs (hn src t)
    | none => rw [hs] at h; simp [steadyE] at h
  · unfold cloneNoop
    match hs : fs src, hd : fs dst with
    | some (Entry.file c1 m1), some (Entry.file c2 m2) =>
      rw [hs, hd] at h
      simp only [steadyE, Bool.and_eq_true] at h
      exact h.1
    | some (Entry.file c1 m1), some (Entry.dir l) => rfl
    | some (Entry.dir l1), some (Entry.file c2 m2) => rfl
    | some (Entry.dir l1), some (Entry.dir l2) => rfl
    | some (Entry.symlink t), _ => exact absurd hs (hn src t)
    | some (Entry.file c1 m1), some (Entry.symlink t) => exact absurd hd (hn dst t)
    | some (Entry.dir l1), some (Entry.symlink t) => exact absurd hd (hn dst t)
    | none, some (Entry.file c2 m2) => rw [hs, hd] at h; simp [steadyE] at h
    | none, some (Entry.dir l2) => rw [hs, hd] at h; simp [steadyE] at h
    | none, some (Entry.symlink t) => exact absurd hd (hn dst t)
    | none, none => rw [hs, hd] at h; simp [steadyE] at h
    | some (Entry.file c1 m1), none => rw [hs, hd] at h; simp [steadyE] at h
    | some (Entry.dir l1), none => rw [hs, hd] at h; simp [steadyE] at h

/-- The create step is a no-op when the destination is present. -/
theorem createStep_present (src dst : Path) (s : St) (hn : NoSym s.fs)
    (e : Entry) (hd : s.fs dst = some e) :
    createStep src dst s = (Except.ok (), s) := by
  unfold createStep
  rw [bindM_eq]
  rw [show existsM dst s = (Except.ok (pathExists s.fs dst), s) from rfl]
  dsimp only []
  rw [bindM_eq]
  rw [show islinkM dst s = (Except.ok (islink s.fs dst), s) from rfl]
  dsimp only []
  rw [islink_noSym hn, pathExists_noSym hn, hd]
  rw [if_neg (by simp)]
  rfl

/-- When the attribute clone has nothing to write, the success tail
only records the clone call and deletes the ledger record. -/
theorem finishStep_steady (src dst : Path) (s : St) (hf : s.faults = [])
    (hn : NoSym s.fs) (hc : cloneNoop s.fs src dst = true) :
    finishStep src dst s = (Except.ok (), { s with
      cache := cacheDelete s.cache src,
      clock := s.clock + 1,
      trace := s.trace ++ [Op.cloneOp src dst] }) := by
  unfold finishStep
  rw [bindM_eq]
  rw [show islinkM dst s = (Except.ok (islink s.fs dst), s) from rfl]
  dsimp only []
  rw [bindM_eq]
  rw [show clonePrim src dst (!islink s.fs dst)
        = prim (Op.cloneOp src dst) (cloneAct src dst (!islink s.fs dst)) from rfl]
  rw [prim_noFault _ _ s hf]
  have hact : cloneAct src dst (!islink s.fs dst)
      { s with trace := s.trace ++ [Op.cloneOp src dst], clock := s.clock + 1 }
      = Except.ok { s with
          trace := s.trace ++ [Op.cloneOp src dst],
          clock := s.clock + 1 } := by
    unfold cloneAct
    dsimp only []
    unfold cloneNoop at hc
    match hs : s.fs src, hd : s.fs dst with
    | some (Entry.file c1 m1), some (Entry.file c2 m2) =>
      rw [hs, hd] at hc
      dsimp only [] at hc
      dsimp only []
      rw [if_pos (eq_of_beq hc)]
    | some (Entry.file c1 m1), some (Entry.dir l) => rfl
    | some (Entry.dir l1), some (Entry.file c2 m2) => rfl
    | some (Entry.dir l1), some (Entry.dir l2) => rfl
    | some (Entry.symlink t), _ => exact absurd hs (hn src t)
    | some (Entry.file c1 m1), some (Entry.symlink t) => exact absurd hd (hn dst t)
    | some (Entry.dir l1), some (Entry.symlink t) => exact absurd hd (hn dst t)
    | none, _ =>
      rw [hs] at hc
      dsimp only [] at hc
      exact Bool.noConfusion hc
    | some (Entry.file c1 m1), none =>
      rw [hs, hd] at hc
      dsimp only [] at hc
      exact Bool.noConfusion hc
    | some (Entry.dir l1), none =>
      rw [hs, hd] at hc
      dsimp only [] at hc
      exact Bool.noConfusion hc
  rw [hact]
  rfl

/-- The whole try body over a steady pair with no stored record is an
exact no-op apart from the recorded clone call and the (vacuous) record
delete. -/
theorem tryBody_steady (cfg : Cfg) (src dst : Path) (s : St)
    (hf : s.faults = []) (hn : NoSym s.fs)
    (hst : steadyPair cfg s.fs src dst) :
    tryBody cfg src dst none s = (Except.ok (), { s with
      cache := cacheDelete s.cache src,
      clock := s.clock + 1,
      trace := s.trace ++ [Op.cloneOp src dst] }) := by
  obtain ⟨⟨e, he⟩, hcmp, hcn⟩ := hst
  unfold tryBody
  rw [bindM_eq]
  rw [show prevBlock cfg src dst none s = (Except.ok false, s) from rfl]
  dsimp only []
  rw [if_neg (by simp)]
  rw [bindM_eq]
  obtain ⟨s1, hcs, hcache1, hfaults1, hd1⟩ := compareStep_spec cfg src dst s hf hn
  have hs1 : s1 = s := by
    rcases hd1 with ⟨h1, _⟩ | ⟨c2, m2, hdf, hcp, hfalse, _⟩
    · exact h1
    · rw [hcmp c2 m2 hdf hcp] at hfalse
      simp at hfalse
  rw [hs1] at hcs
  rw [hcs]
  dsimp only []
  rw [bindM_eq]
  rw [createStep_present src dst s hn e he]
  dsimp only []
  exact finishStep_steady src dst s hf hn hcn

/-- A whole pair step over a steady pair with no stored record yields no
error and leaves everything but the clock and the clone trace entry
untouched. -/
theorem pairStep_steady (cfg : Cfg) (src dst : Path) (errs : List Path)
    (s : St) (hf : s.faults = []) (hn : NoSym s.fs)
    (hprev : cacheGet s.cache src = none)
    (hst : steadyPair cfg s.fs src dst) :
    pairStep cfg src dst errs s = (errs, { s with
      cache := cacheDelete s.cache src,
      clock := s.clock + 1,
      trace := s.trace ++ [Op.cloneOp src dst] }) := by
  unfold pairStep
  dsimp only []
  rw [hprev, tryBody_steady cfg src dst s hf hn hst]

/-- Point update reads back. -/
theorem fsSet_self (fs : FS) (p : Path) (e : Entry) : fsSet fs p e p = some e := by
  unfold fsSet
  rw [if_pos rfl]

/-- Point update leaves other paths alone. -/
theorem fsSet_ne (fs : FS) (p : Path) (e : Entry) (q : Path) (h : q ≠ p) :
    fsSet fs p e q = fs q := by
  unfold fsSet
  rw [if_neg h]

/-- Point removal leaves other paths alone. -/
theorem fsRemove_ne (fs : FS) (p q : Path) (h : q ≠ p) :
    fsRemove fs p q = fs q := by
  unfold fsRemove
  rw [if_neg h]

/-- A successful success tail (no faults, no symlinks): both entries
were present, the source entry is untouched, and the destination is
untouched except that a file destination paired with a file source ends
with the source mtime. -/
theorem finishStep_ok (src dst : Path) (s : St) (hf : s.faults = [])
    (hn : NoSym s.fs) (hne : src ≠ dst) (s3 : St)
    (h : finishStep src dst s = (Except.ok (), s3)) :
    (∃ e1, s.fs src = some e1) ∧ (∃ e2, s.fs dst = some e2)
    ∧ s3.fs src = s.fs src
    ∧ (s3.fs dst = s.fs dst
        ∨ ∃ c1 m1 c2 m2, s.fs src = some (Entry.file c1 m1)
            ∧ s.fs dst = some (Entry.file c2 m2)
            ∧ s3.fs dst = some (Entry.file c2 m1))
    ∧ (∀ c1 m1 c2 m2, s.fs src = some (Entry.file c1 m1) →
        s.fs dst = some (Entry.file c2 m2) → s3.fs dst = some (Entry.file c2 m1)) := by
  unfold finishStep at h
  rw [bindM_eq] at h
  rw [show islinkM dst s = (Except.ok (islink s.fs dst), s) from rfl] at h
  dsimp only [] at h
  rw [bindM_eq] at h
  rw [show clonePrim src dst (!islink s.fs dst)
        = prim (Op.cloneOp src dst) (cloneAct src dst (!islink s.fs dst)) from rfl] at h
  rw [prim_noFault _ _ s hf] at h
  match hs : s.fs src, hd : s.fs dst with
  | some (Entry.symlink t), _ => exact absurd hs (hn src t)
  | some (Entry.file c1 m1), some (Entry.symlink t) => exact absurd hd (hn dst t)
  | some (Entry.dir l1), some (Entry.symlink t) => exact absurd hd (hn dst t)
  | some (Entry.file c1 m1), some (Entry.file c2 m2) =>
    by_cases hm : m1 = m2
    · have hca : cloneAct src dst (!islink s.fs dst)
          { s with trace := s.trace ++ [Op.cloneOp src dst], clock := s.clock + 1 }
          = Except.ok { s with
              trace := s.trace ++ [Op.cloneOp src dst], clock := s.clock + 1 } := by
        unfold cloneAct
        dsimp only []
        rw [hs, hd]
        dsimp only []
        rw [if_pos hm]
      rw [hca] at h
      dsimp only [cacheDelM] at h
      injection h with h1 h2
      rw [← h2]
      refine ⟨⟨_, rfl⟩, ⟨_, rfl⟩, hs, Or.inl hd, ?_⟩
      intro c1' m1' c2' m2' h1' h2'
      injection h1' with h1'
      injection h2' with h2'
      injection h1' with hc1 hm1
      injection h2' with hc2 hm2
      show s.fs dst = some (Entry.file c2' m1')
      rw [hd, ← hc2, ← hm1, hm]
    · have hca : cloneAct src dst (!islink s.fs dst)
          { s with trace := s.trace ++ [Op.cloneOp src dst], clock := s.clock + 1 }
          = Except.ok { s with
              fs := fsSet s.fs dst (Entry.file c2 m1),
              trace := s.trace ++ [Op.cloneOp src dst], clock := s.clock + 1 } := by
        unfold cloneAct
        dsimp only []
        rw [hs, hd]
        dsimp only []
        rw [if_neg hm]
      rw [hca] at h
      dsimp only [cacheDelM] at h
      injection h with h1 h2
      rw [← h2]
      refine ⟨⟨_, rfl⟩, ⟨_, rfl⟩, ?_, ?_, ?_⟩
      · show fsSet s.fs dst (Entry.file c2 m1) src = some (Entry.file c1 m1)
        rw [fsSet_ne _ _ _ _ hne, hs]
      · refine Or.inr ⟨c1, m1, c2, m2, rfl, rfl, ?_⟩
        show fsSet s.fs dst (Entry.file c2 m1) dst = some (Entry.file c2 m1)
        rw [fsSet_self]
      · intro c1' m1' c2' m2' h1' h2'
        injection h1' with h1'
        injection h2' with h2'
        injection h1' with hc1 hm1
        injection h2' with hc2 hm2
        show fsSet s.fs dst (Entry.file c2 m1) dst = some (Entry.file c2' m1')
        rw [fsSet_self, ← hc2, ← hm1]
  | some (Entry.file c1 m1), some (Entry.dir l2) =>
    have hca : cloneAct src dst (!islink s.fs dst)
        { s with trace := s.trace ++ [Op.cloneOp src dst], clock := s.clock + 1 }
        = Except.ok { s with
            trace := s.trace ++ [Op.cloneOp src dst], clock := s.clock + 1 } := by
      unfold cloneAct
      dsimp only []
      rw [hs, hd]
    rw [hca] at h
    dsimp only [cacheDelM] at h
    injection h with h1 h2
    rw [← h2]
    refine ⟨⟨_, rfl⟩, ⟨_, rfl⟩, hs, Or.inl hd, ?_⟩
    intro c1' m1' c2' m2' h1' h2'
    simp at h2'
  | some (Entry.dir l1), some (Entry.file c2 m2) =>
    have hca : cloneAct src dst (!islink s.fs dst)
        { s with trace := s.trace ++ [Op.cloneOp src dst], clock := s.clock + 1 }
        = Except.ok { s with
            trace := s.trace ++ [Op.cloneOp src dst], clock := s.clock + 1 } := by
      unfold cloneAct
      dsimp only []
      rw [hs, hd]
    rw [hca] at h
    dsimp only [cacheDelM] at h
    injection h with h1 h2
    rw [← h2]
    refine ⟨⟨_, rfl⟩, ⟨_, rfl⟩, hs, Or.inl hd, ?_⟩
    intro c1' m1' c2' m2' h1' h2'
    simp at h1'
  | some (Entry.dir l1), some (Entry.dir l2) =>
    have hca : cloneAct src dst (!islink s.fs dst)
        { s with trace := s.trace ++ [Op.cloneOp src dst], clock := s.clock + 1 }
        = Except.ok { s with
            trace := s.trace ++ [Op.cloneOp src dst], clock := s.clock + 1 } := by
      unfold cloneAct
      dsimp only []
      rw [hs, hd]
    rw [hca] at h
    dsimp only [cacheDelM] at h
    injection h with h1 h2
    rw [← h2]
    refine ⟨⟨_, rfl⟩, ⟨_, rfl⟩, hs, Or.inl hd, ?_⟩
    intro c1' m1' c2' m2' h1' h2'
    simp at h1'
  | none, _ =>
    have hca : cloneAct src dst (!islink s.fs dst)
        { s with trace := s.trace ++ [Op.cloneOp src dst], clock := s.clock + 1 }
        = Except.error "attrs missing" := by
      unfold cloneAct
      dsimp only []
      rw [hs]
    rw [hca] at h
    dsimp only [] at h
    simp at h
  | some (Entry.file c1 m1), none =>
    have hca : cloneAct src dst (!islink s.fs dst)
        { s with trace := s.trace ++ [Op.cloneOp src dst], clock := s.clock + 1 }
        = Except.error "attrs missing" := by
      unfold cloneAct
      dsimp only []
      rw [hs, hd]
    rw [hca] at h
    dsimp only [] at h
    simp at h
  | some (Entry.dir l1), none =>
    have hca : cloneAct src dst (!islink s.fs dst)
        { s with trace := s.trace ++ [Op.cloneOp src dst], clock := s.clock + 1 }
        = Except.error "attrs missing" := by
      unfold cloneAct
      dsimp only []
      rw [hs, hd]
    rw [hca] at h
    dsimp only [] at h
    simp at h

/-- A successful create step over an absent destination (no faults, no
symlinks): afterwards the destination holds either a fresh empty
directory or a copy of the source file entry, and the source is a
directory or that same file. -/
theorem createStep_absent (src dst : Path) (s : St) (hf : s.faults = [])
    (hn : NoSym s.fs) (hne : src ≠ dst) (hd : s.fs dst = none) (s2 : St)
    (h : createStep src dst s = (Except.ok (), s2)) :
    s2.faults = s.faults ∧ NoSym s2.fs
    ∧ ((∃ ls, s2.fs src = some (Entry.dir ls) ∧ s2.fs dst = some (Entry.dir []))
       ∨ (∃ c m, s2.fs src = some (Entry.file c m)
            ∧ (s2.fs dst = some (Entry.dir []) ∨ s2.fs dst = some (Entry.file c m)))) := by
  unfold createStep at h
  rw [bindM_eq] at h
  rw [show existsM dst s = (Except.ok (pathExists s.fs dst), s) from rfl] at h
  dsimp only [] at h
  rw [bindM_eq] at h
  rw [show islinkM dst s = (Except.ok (islink s.fs dst), s) from rfl] at h
  dsimp only [] at h
  rw [islink_noSym hn, pathExists_noSym hn, hd] at h
  rw [if_pos (show (!(none : Option Entry).isSome && !false) = true from rfl)] at h
  rw [bindM_eq] at h
  rw [show isdirM src s = (Except.ok (isdir s.fs src), s) from rfl] at h
  dsimp only [] at h
  rw [isdir_noSym hn] at h
  match hsrc : s.fs src with
  | some (Entry.symlink t) => exact absurd hsrc (hn src t)
  | some (Entry.dir l0) =>
    rw [hsrc] at h
    dsimp only [] at h
    rw [if_pos rfl] at h
    rw [show makedirsPrim dst = prim (Op.makedirsOp dst) (makedirsAct dst) from rfl] at h
    rw [prim_noFault _ _ s hf] at h
    have hmk : makedirsAct dst
        { s with trace := s.trace ++ [Op.makedirsOp dst], clock := s.clock + 1 }
        = Except.ok { s with
            fs := fsSet s.fs dst (Entry.dir []),
            trace := s.trace ++ [Op.makedirsOp dst], clock := s.clock + 1 } := by
      unfold makedirsAct
      dsimp only []
      rw [isdir_noSym hn, hd]
      rfl
    rw [hmk] at h
    dsimp only [] at h
    injection h with h1 h2
    rw [← h2]
    refine ⟨rfl, noSym_fsSet hn dst (Entry.dir []) (fun t hq => Entry.noConfusion hq),
      Or.inl ⟨l0, ?_, ?_⟩⟩
    · show fsSet s.fs dst (Entry.dir []) src = some (Entry.dir l0)
      rw [fsSet_ne _ _ _ _ hne, hsrc]
    · show fsSet s.fs dst (Entry.dir []) dst = some (Entry.dir [])
      rw [fsSet_self]
  | some (Entry.file c m) =>
    rw [hsrc] at h
    dsimp only [] at h
    rw [if_neg (by simp)] at h
    rw [bindM_eq] at h
    rw [show makedirsPrim (dirnameP dst)
          = prim (Op.makedirsOp (dirnameP dst)) (makedirsAct (dirnameP dst)) from rfl] at h
    rw [prim_noFault _ _ s hf] at h
    match hp : s.fs (dirnameP dst) with
    | some (Entry.symlink t) => exact absurd hp (hn (dirnameP dst) t)
    | some (Entry.file cp0 mp0) =>
      have hmk : makedirsAct (dirnameP dst)
          { s with trace := s.trace ++ [Op.makedirsOp (dirnameP dst)], clock := s.clock + 1 }
          = Except.error "makedirs exists" := by
        unfold makedirsAct
        dsimp only []
        rw [isdir_noSym hn, hp]
        rfl
      rw [hmk] at h
      dsimp only [] at h
      simp at h
    | some (Entry.dir lp) =>
      have hmk : makedirsAct (dirnameP dst)
          { s with trace := s.trace ++ [Op.makedirsOp (dirnameP dst)], clock := s.clock + 1 }
          = Except.ok { s with
              trace := s.trace ++ [Op.makedirsOp (dirnameP dst)], clock := s.clock + 1 } := by
        unfold makedirsAct
        dsimp only []
        rw [isdir_noSym hn, hp]
        rfl
      rw [hmk] at h
      dsimp only [] at h
      rw [show cpPrim src dst = prim (Op.cpOp src dst) (cpAct src dst) from rfl] at h
      rw [prim_noFault _ _ { s with
        trace := s.trace ++ [Op.makedirsOp (dirnameP dst)], clock := s.clock + 1 } hf] at h
      dsimp only [] at h
      have hcp : cpAct src dst
          { s with
            trace := s.trace ++ [Op.makedirsOp (dirnameP dst)] ++ [Op.cpOp src dst],
            clock := s.clock + 1 + 1 }
          = Except.ok { s with
              fs := fsSet s.fs dst (Entry.file c m),
              trace := s.trace ++ [Op.makedirsOp (dirnameP dst)] ++ [Op.cpOp src dst],
              clock := s.clock + 1 + 1 } := by
        unfold cpAct
        dsimp only []
        rw [hsrc]
        dsimp only []
        rw [hd]
      rw [hcp] at h
      dsimp only [] at h
      injection h with h1 h2
      rw [← h2]
      refine ⟨rfl, noSym_fsSet hn dst _ (fun t hq => Entry.noConfusion hq),
        Or.inr ⟨c, m, ?_, Or.inr ?_⟩⟩
      · show fsSet s.fs dst (Entry.file c m) src = some (Entry.file c m)
        rw [fsSet_ne _ _ _ _ hne, hsrc]
      · show fsSet s.fs dst (Entry.file c m) dst = some (Entry.file c m)
        rw [fsSet_self]
    | none =>
      have hmk : makedirsAct (dirnameP dst)
          { s with trace := s.trace ++ [Op.makedirsOp (dirnameP dst)], clock := s.clock + 1 }
          = Except.ok { s with
              fs := fsSet s.fs (dirnameP dst) (Entry.dir []),
              trace := s.trace ++ [Op.makedirsOp (dirnameP dst)], clock := s.clock + 1 } := by
        unfold makedirsAct
        dsimp only []
        rw [isdir_noSym hn, hp]
        rfl
      rw [hmk] at h
      dsimp only [] at h
      rw [show cpPrim src dst = prim (Op.cpOp src dst) (cpAct src dst) from rfl] at h
      rw [prim_noFault _ _ { s with
        fs := fsSet s.fs (dirnameP dst) (Entry.dir []),
        trace := s.trace ++ [Op.makedirsOp (dirnameP dst)], clock := s.clock + 1 } hf] at h
      dsimp only [] at h
      have hsp : src ≠ dirnameP dst := by
        intro hq
        rw [hq, hp] at hsrc
        exact Option.noConfusion hsrc
      by_cases hdp : dst = dirnameP dst
      · have hcp : cpAct src dst
            { s with
              fs := fsSet s.fs (dirnameP dst) (Entry.dir []),
              trace := s.trace ++ [Op.makedirsOp (dirnameP dst)] ++ [Op.cpOp src dst],
              clock := s.clock + 1 + 1 }
            = Except.ok { s with
                fs := fsSet s.fs (dirnameP dst) (Entry.dir []),
                trace := s.trace ++ [Op.makedirsOp (dirnameP dst)] ++ [Op.cpOp src dst],
                clock := s.clock + 1 + 1 } := by
          unfold cpAct
          dsimp only []
          rw [fsSet_ne _ _ _ _ hsp, hsrc]
          dsimp only []
          rw [← hdp, fsSet_self]
        rw [hcp] at h
        dsimp only [] at h
        injection h with h1 h2
        rw [← h2]
        refine ⟨rfl, noSym_fsSet hn _ _ (fun t hq => Entry.noConfusion hq),
          Or.inr ⟨c, m, ?_, Or.inl ?_⟩⟩
        · show fsSet s.fs (dirnameP dst) (Entry.dir []) src = some (Entry.file c m)
          rw [fsSet_ne _ _ _ _ hsp, hsrc]
        · show fsSet s.fs (dirnameP dst) (Entry.dir []) dst = some (Entry.dir [])
          rw [← hdp, fsSet_self]
      · have hcp : cpAct src dst
            { s with
              fs := fsSet s.fs (dirnameP dst) (Entry.dir []),
              trace := s.trace ++ [Op.makedirsOp (dirnameP dst)] ++ [Op.cpOp src dst],
              clock := s.clock + 1 + 1 }
            = Except.ok { s with
                fs := fsSet (fsSet s.fs (dirnameP dst) (Entry.dir [])) dst (Entry.file c m),
                trace := s.trace ++ [Op.makedirsOp (dirnameP dst)] ++ [Op.cpOp src dst],
                clock := s.clock + 1 + 1 } := by
          unfold cpAct
          dsimp only []
          rw [fsSet_ne _ _ _ _ hsp, hsrc]
          dsimp only []
          rw [fsSet_ne _ _ _ _ hdp, hd]
        rw [hcp] at h
        dsimp only [] at h
        injection h with h1 h2
        rw [← h2]
        refine ⟨rfl,
          noSym_fsSet (noSym_fsSet hn _ _ (fun t hq => Entry.noConfusion hq)) _ _
            (fun t hq => Entry.noConfusion hq),
          Or.inr ⟨c, m, ?_, Or.inr ?_⟩⟩
        · show fsSet (fsSet s.fs (dirnameP dst) (Entry.dir [])) dst (Entry.file c m) src
              = some (Entry.file c m)
          rw [fsSet_ne _ _ _ _ hne, fsSet_ne _ _ _ _ hsp, hsrc]
        · show fsSet (fsSet s.fs (dirnameP dst) (Entry.dir [])) dst (Entry.file c m) dst
              = some (Entry.file c m)
          rw [fsSet_self]
  | none =>
    rw [hsrc] at h
    dsimp only [] at h
    rw [if_neg (by simp)] at h
    rw [bindM_eq] at h
    rw [show makedirsPrim (dirnameP dst)
          = prim (Op.makedirsOp (dirnameP dst)) (makedirsAct (dirnameP dst)) from rfl] at h
    rw [prim_noFault _ _ s hf] at h
    match hp : s.fs (dirnameP dst) with
    | some (Entry.symlink t) => exact absurd hp (hn (dirnameP dst) t)
    | some (Entry.file cp0 mp0) =>
      have hmk : makedirsAct (dirnameP dst)
          { s with trace := s.trace ++ [Op.makedirsOp (dirnameP dst)], clock := s.clock + 1 }
          = Except.error "makedirs exists" := by
        unfold makedirsAct
        dsimp only []
        rw [isdir_noSym hn, hp]
        rfl
      rw [hmk] at h
      dsimp only [] at h
      simp at h
    | some (Entry.dir lp) =>
      have hmk : makedirsAct (dirnameP dst)
          { s with trace := s.trace ++ [Op.makedirsOp (dirnameP dst)], clock := s.clock + 1 }
          = Except.ok { s with
              trace := s.trace ++ [Op.makedirsOp (dirnameP dst)], clock := s.clock + 1 } := by
        unfold makedirsAct
        dsimp only []
        rw [isdir_noSym hn, hp]
        rfl
      rw [hmk] at h
      dsimp only [] at h
      rw [show cpPrim src dst = prim (Op.cpOp src dst) (cpAct src dst) from rfl] at h
      rw [prim_noFault _ _ { s with
        trace := s.trace ++ [Op.makedirsOp (dirnameP dst)], clock := s.clock + 1 } hf] at h
      dsimp only [] at h
      have hcp : cpAct src dst
          { s with
            trace := s.trace ++ [Op.makedirsOp (dirnameP dst)] ++ [Op.cpOp src dst],
            clock := s.clock + 1 + 1 }
          = Except.error "cp missing" := by
        unfold cpAct
        dsimp only []
        rw [hsrc]
      rw [hcp] at h
      dsimp only [] at h
      simp at h
    | none =>
      have hmk : makedirsAct (dirnameP dst)
          { s with trace := s.trace ++ [Op.makedirsOp (dirnameP dst)], clock := s.clock + 1 }
          = Except.ok { s with
              fs := fsSet s.fs (dirnameP dst) (Entry.dir []),
              trace := s.trace ++ [Op.makedirsOp (dirnameP dst)], clock := s.clock + 1 } := by
        unfold makedirsAct
        dsimp only []
        rw [isdir_noSym hn, hp]
        rfl
      rw [hmk] at h
      dsimp only [] at h
      rw [show cpPrim src dst = prim (Op.cpOp src dst) (cpAct src dst) from rfl] at h
      rw [prim_noFault _ _ { s with
        fs := fsSet s.fs (dirnameP dst) (Entry.dir []),
        trace := s.trace ++ [Op.makedirsOp (dirnameP dst)], clock := s.clock + 1 } hf] at h
      dsimp only [] at h
      by_cases hsp : src = dirnameP dst
      · have hdp : dst ≠ dirnameP dst := by
          rw [← hsp]
          exact fun hq => hne hq.symm
        have hcp : cpAct src dst
            { s with
              fs := fsSet s.fs (dirnameP dst) (Entry.dir []),
              trace := s.trace ++ [Op.makedirsOp (dirnameP dst)] ++ [Op.cpOp src dst],
              clock := s.clock + 1 + 1 }
            = Except.ok { s with
                fs := fsSet (fsSet s.fs (dirnameP dst) (Entry.dir [])) dst (Entry.dir []),
                trace := s.trace ++ [Op.makedirsOp (dirnameP dst)] ++ [Op.cpOp src dst],
                clock := s.clock + 1 + 1 } := by
          unfold cpAct
          dsimp only []
          rw [hsp, fsSet_self]
          dsimp only []
          rw [fsSet_ne _ _ _ _ hdp, hd]
        rw [hcp] at h
        dsimp only [] at h
        injection h with h1 h2
        rw [← h2]
        refine ⟨rfl,
          noSym_fsSet (noSym_fsSet hn _ _ (fun t hq => Entry.noConfusion hq)) _ _
            (fun t hq => Entry.noConfusion hq),
          Or.inl ⟨[], ?_, ?_⟩⟩
        · show fsSet (fsSet s.fs (dirnameP dst) (Entry.dir [])) dst (Entry.dir []) src
              = some (Entry.dir [])
          rw [fsSet_ne _ _ _ _ hne, hsp, fsSet_self]
        · show fsSet (fsSet s.fs (dirnameP dst) (Entry.dir [])) dst (Entry.dir []) dst
              = some (Entry.dir [])
          rw [fsSet_self]
      · have hcp : cpAct src dst
            { s with
              fs := fsSet s.fs (dirnameP dst) (Entry.dir []),
              trace := s.trace ++ [Op.makedirsOp (dirnameP dst)] ++ [Op.cpOp src dst],
              clock := s.clock + 1 + 1 }
            = Except.error "cp missing" := by
          unfold cpAct
          dsimp only []
          rw [fsSet_ne _ _ _ _ hsp, hsrc]
        rw [hcp] at h
        dsimp only [] at h
        simp at h

/-- A successful try body over a pair with no stored record (no faults,
no symlinks, distinct paths) leaves the pair entry-steady: a second
processing of the pair will be a pure no-op. -/
theorem tryBody_ok_post (cfg : Cfg) (src dst : Path) (s s2f : St)
    (hne : src ≠ dst) (hf : s.faults = []) (hn : NoSym s.fs)
    (h : tryBody cfg src dst none s = (Except.ok (), s2f)) :
    steadyB cfg s2f.fs src dst = true := by
  unfold tryBody at h
  rw [bindM_eq] at h
  rw [show prevBlock cfg src dst none s = (Except.ok false, s) from rfl] at h
  dsimp only [] at h
  rw [if_neg (by simp)] at h
  rw [bindM_eq] at h
  obtain ⟨s1, hcs, hcache1, hfaults1, hdisj⟩ := compareStep_spec cfg src dst s hf hn
  rw [hcs] at h
  dsimp only [] at h
  rw [bindM_eq] at h
  have hf1 : s1.faults = [] := by rw [hfaults1, hf]
  have hn1 : NoSym s1.fs := by
    rcases hdisj with ⟨he, _⟩ | ⟨c2, m2, _, _, _, hfs⟩
    · rw [he]; exact hn
    · rw [hfs]; exact noSym_fsRemove hn dst
  rcases hcr : createStep src dst s1 with ⟨r2, s2⟩
  rw [hcr] at h
  cases r2 with
  | error e =>
    dsimp only [] at h
    simp at h
  | ok a =>
    dsimp only [] at h
    match hd1 : s1.fs dst with
    | some (Entry.symlink t) => exact absurd hd1 (hn1 dst t)
    | some (Entry.dir l2) =>
      have hs2 : s2 = s1 := by
        rw [createStep_present src dst s1 hn1 _ hd1] at hcr
        injection hcr with _ hh
        exact hh.symm
      rw [hs2] at h
      obtain ⟨⟨e1, he1⟩, ⟨e2, he2⟩, hsrc2, hdst2, hff⟩ :=
        finishStep_ok src dst s1 hf1 hn1 hne s2f h
      rcases hdst2 with hde | ⟨c1x, m1x, c2x, m2x, _, hfdst, _⟩
      · unfold steadyB
        rw [hsrc2, he1, hde, hd1]
        match e1, he1 with
        | Entry.file c1 m1, _ => simp [steadyE]
        | Entry.dir l1, _ => simp [steadyE]
        | Entry.symlink t, he1 => exact absurd he1 (hn1 src t)
      · rw [hd1] at hfdst
        simp at hfdst
    | none =>
      obtain ⟨hfa2, hn2, hshape⟩ := createStep_absent src dst s1 hf1 hn1 hne hd1 s2 hcr
      have hf2 : s2.faults = [] := by rw [hfa2, hf1]
      obtain ⟨⟨e1, he1⟩, ⟨e2, he2⟩, hsrc2, hdst2, hff⟩ :=
        finishStep_ok src dst s2 hf2 hn2 hne s2f h
      rcases hshape with ⟨ls, hsr, hdd⟩ | ⟨c, m, hsr, hdd⟩
      · rcases hdst2 with hde | ⟨c1x, m1x, c2x, m2x, _, hfdst, _⟩
        · unfold steadyB
          rw [hsrc2, hsr, hde, hdd]
          simp [steadyE]
        · rw [hdd] at hfdst
          simp at hfdst
      · rcases hdd with hdd | hdd
        · rcases hdst2 with hde | ⟨c1x, m1x, c2x, m2x, _, hfdst, _⟩
          · unfold steadyB
            rw [hsrc2, hsr, hde, hdd]
            simp [steadyE]
          · rw [hdd] at hfdst
            simp at hfdst
        · unfold steadyB
          rw [hsrc2, hsr, hff c m c m hsr hdd]
          simp [steadyE, filecmpFiles_refl]
    | some (Entry.file c2 m2) =>
      have hs2 : s2 = s1 := by
        rw [createStep_present src dst s1 hn1 _ hd1] at hcr
        injection hcr with _ hh
        exact hh.symm
      rw [hs2] at h
      obtain ⟨⟨e1, he1⟩, ⟨e2, he2⟩, hsrc2, hdst2, hff⟩ :=
        finishStep_ok src dst s1 hf1 hn1 hne s2f h
      rcases hdisj with ⟨hseq, hcmp⟩ | ⟨c2x, m2x, _, _, _, hfs⟩
      · rw [hseq] at hd1 he1 hsrc2 hdst2 hff
        by_cases hcomp : cfg.compare = true
        · have hct : cmp s.fs src dst cfg.shallow = Except.ok true :=
            hcmp c2 m2 hd1 hcomp
          obtain ⟨c1, m1, hsf⟩ := cmp_true_src_file hn hd1 hct
          rw [cmp_files_eval hn hsf hd1 cfg.shallow] at hct
          injection hct with hct
          unfold steadyB
          rw [hsrc2, hsf, hff c1 m1 c2 m2 hsf hd1]
          simp [steadyE, filecmpFiles_clone hct]
        · simp only [Bool.not_eq_true] at hcomp
          match e1, he1 with
          | Entry.file c1 m1, he1 =>
            unfold steadyB
            rw [hsrc2, he1, hff c1 m1 c2 m2 he1 hd1]
            simp [steadyE, hcomp]
          | Entry.dir l1, he1 =>
            rcases hdst2 with hde | ⟨c1x, m1x, c2x2, m2x2, hfsrc, _, _⟩
            · unfold steadyB
              rw [hsrc2, he1, hde, hd1]
              simp [steadyE, hcomp]
            · rw [he1] at hfsrc
              simp at hfsrc
          | Entry.symlink t, he1 => exact absurd he1 (hn src t)
      · have hnn : s1.fs dst = none := by
          rw [hfs]
          unfold fsRemove
          rw [if_pos rfl]
        rw [hnn] at hd1
        exact Option.noConfusion hd1

/-- Steadiness needs both entries present. -/
theorem steadyE_some {c sh : Bool} {x y : Option Entry}
    (h : steadyE c sh x y = true) :
    (∃ e1, x = some e1) ∧ (∃ e2, y = some e2) := by
  match x, y with
  | some e1, some e2 => exact ⟨⟨e1, rfl⟩, ⟨e2, rfl⟩⟩
  | none, some (Entry.file c2 m2) => simp [steadyE] at h
  | none, some (Entry.dir l2) => simp [steadyE] at h
  | none, some (Entry.symlink t) => simp [steadyE] at h
  | none, none => simp [steadyE] at h
  | some (Entry.file c1 m1), none => simp [steadyE] at h
  | some (Entry.dir l1), none => simp [steadyE] at h
  | some (Entry.symlink t), none => simp [steadyE] at h

/-- Entry-local steadiness survives any filesystem change that leaves
the two entries alone (present entries are never hit by the
absent-to-directory case). -/
theorem steadyB_frame {cfg : Cfg} {fs fs2 : FS} {a b : Path}
    (h : steadyB cfg fs a b = true)
    (ha : fs2 a = fs a ∨ (fs a = none ∧ fs2 a = some (Entry.dir [])))
    (hb : fs2 b = fs b ∨ (fs b = none ∧ fs2 b = some (Entry.dir []))) :
    steadyB cfg fs2 a b = true := by
  obtain ⟨⟨e1, he1⟩, ⟨e2, he2⟩⟩ := steadyE_some h
  rcases ha with ha | ⟨hnone, _⟩
  · rcases hb with hb | ⟨hnone, _⟩
    · unfold steadyB at h ⊢
      rw [ha, hb]
      exact h
    · rw [he2] at hnone
      exact Option.noConfusion hnone
  · rw [he1] at hnone
    exact Option.noConfusion hnone

/-- The cumulative error list only grows along a batch. -/
theorem cpLsGo_errs_mono (cfg : Cfg) :
    ∀ (pairs : List (Path × Path)) (idx : Nat) (errs : List Path) (s : St),
      ∃ t, (cpLsGo cfg pairs idx errs s).2.1 = errs ++ t := by
  intro pairs
  induction pairs with
  | nil =>
    intro idx errs s
    exact ⟨[], by simp [cpLsGo]⟩
  | cons hd tl ih =>
    intro idx errs s
    cases hd with
    | mk src dst =>
      obtain ⟨_, _, _, _, _, hse⟩ := pairStep_frame cfg src dst errs s
      obtain ⟨t2, ht2⟩ :=
        ih (idx + 1) (pairStep cfg src dst errs s).1 (pairStep cfg src dst errs s).2
      have hred : (cpLsGo cfg ((src, dst) :: tl) idx errs s).2
          = (cpLsGo cfg tl (idx + 1) (pairStep cfg src dst errs s).1
              (pairStep cfg src dst errs s).2).2 := rfl
      rcases hse with h1 | h1
      · refine ⟨t2, ?_⟩
        rw [hred, ht2, h1]
      · refine ⟨[src] ++ t2, ?_⟩
        rw [hred, ht2, h1, List.append_assoc]

/-- A batch changes the filesystem only at its destinations (or turns an
absent path into a fresh directory). -/
theorem cpLsGo_fs_frame (cfg : Cfg) :
    ∀ (pairs : List (Path × Path)) (idx : Nat) (errs : List Path) (s : St)
      (p : Path), (∀ a b, (a, b) ∈ pairs → p ≠ b) →
      ((cpLsGo cfg pairs idx errs s).2.2.fs p = s.fs p
        ∨ (s.fs p = none
            ∧ (cpLsGo cfg pairs idx errs s).2.2.fs p = some (Entry.dir []))) := by
  intro pairs
  induction pairs with
  | nil =>
    intro idx errs s p hp
    exact Or.inl rfl
  | cons hd tl ih =>
    intro idx errs s p hp
    cases hd with
    | mk src dst =>
      obtain ⟨_, _, _, hfs, _, _⟩ := pairStep_frame cfg src dst errs s
      have h1 := hfs p (hp src dst (List.mem_cons_self _ _))
      have h2 := ih (idx + 1) (pairStep cfg src dst errs s).1
        (pairStep cfg src dst errs s).2 p
        (fun a b hab => hp a b (List.mem_cons_of_mem _ hab))
      have hred : (cpLsGo cfg ((src, dst) :: tl) idx errs s).2
          = (cpLsGo cfg tl (idx + 1) (pairStep cfg src dst errs s).1
              (pairStep cfg src dst errs s).2).2 := rfl
      rw [hred]
      rcases h1 with h1 | ⟨h1n, h1d⟩
      · rcases h2 with h2 | ⟨h2n, h2d⟩
        · exact Or.inl (by rw [h2, h1])
        · rw [h1] at h2n
          exact Or.inr ⟨h2n, h2d⟩
      · rcases h2 with h2 | ⟨h2n, h2d⟩
        · exact Or.inr ⟨h1n, by rw [h2, h1d]⟩
        · rw [h1d] at h2n
          exact Option.noConfusion h2n

/-- A pair step that adds no error ran its try body successfully, left
the pair entry-steady and kept an empty ledger empty. -/
theorem pairStep_ok_post (cfg : Cfg) (src dst : Path) (errs : List Path)
    (s : St) (hne : src ≠ dst) (hf : s.faults = []) (hn : NoSym s.fs)
    (hc : s.cache = [])
    (hok : (pairStep cfg src dst errs s).1 = errs) :
    steadyB cfg (pairStep cfg src dst errs s).2.fs src dst = true
    ∧ (pairStep cfg src dst errs s).2.cache = [] := by
  have hprev : cacheGet s.cache src = none := by rw [hc]; rfl
  unfold pairStep at hok ⊢
  dsimp only [] at hok ⊢
  rw [hprev] at hok ⊢
  rcases htb : tryBody cfg src dst none s with ⟨r, s1⟩
  cases r with
  | error e =>
    rw [htb] at hok
    dsimp only [] at hok
    have hlen := congrArg List.length hok
    rw [List.length_append] at hlen
    simp at hlen
  | ok a =>
    cases a
    dsimp only []
    constructor
    · exact tryBody_ok_post cfg src dst s s1 hne hf hn htb
    · have hshape := cacheShape_tryBody cfg src dst none s
      rw [htb] at hshape
      rcases hshape with h1 | h1
      · rw [h1]
        exact hc
      · rw [h1, hc]
        rfl

/-- After a batch over fresh state (no faults, no symlinks, empty
ledger, destinations distinct and disjoint from sources) that collects
no errors, the state is again fault-free, symlink-free and
empty-ledgered, and every processed pair is entry-steady under the
final filesystem. -/
theorem cpLsGo_run1 (cfg : Cfg) :
    ∀ (pairs : List (Path × Path)) (idx : Nat) (errs : List Path) (s : St),
      s.faults = [] → NoSym s.fs → s.cache = [] →
      (∀ p q, (p, q) ∈ pairs → ∀ a b, (a, b) ∈ pairs → q ≠ a) →
      (pairs.map Prod.snd).Nodup →
      (cpLsGo cfg pairs idx errs s).2.1 = errs →
      (cpLsGo cfg pairs idx errs s).2.2.faults = []
      ∧ NoSym (cpLsGo cfg pairs idx errs s).2.2.fs
      ∧ (cpLsGo cfg pairs idx errs s).2.2.cache = []
      ∧ ∀ a b, (a, b) ∈ pairs →
          steadyB cfg (cpLsGo cfg pairs idx errs s).2.2.fs a b = true := by
  intro pairs
  induction pairs with
  | nil =>
    intro idx errs s hf hn hc hdisj hnd herr
    exact ⟨hf, hn, hc, fun a b hab => absurd hab (List.not_mem_nil _)⟩
  | cons hd tl ih =>
    intro idx errs s hf hn hc hdisj hnd herr
    cases hd with
    | mk src dst =>
      have hmemhd : (src, dst) ∈ (src, dst) :: tl := List.mem_cons_self _ _
      have hne : src ≠ dst :=
        fun hq => (hdisj src dst hmemhd src dst hmemhd) hq.symm
      have hred : (cpLsGo cfg ((src, dst) :: tl) idx errs s).2
          = (cpLsGo cfg tl (idx + 1) (pairStep cfg src dst errs s).1
              (pairStep cfg src dst errs s).2).2 := rfl
      rw [hred] at herr ⊢
      obtain ⟨hfa, ⟨Δ, ht, hcp⟩, hco, hfs, hns, hse⟩ := pairStep_frame cfg src dst errs s
      have hok : (pairStep cfg src dst errs s).1 = errs := by
        rcases hse with h1 | h1
        · exact h1
        · exfalso
          obtain ⟨t2, ht2⟩ := cpLsGo_errs_mono cfg tl (idx + 1)
            (pairStep cfg src dst errs s).1 (pairStep cfg src dst errs s).2
          rw [ht2, h1] at herr
          have := congrArg List.length herr
          simp [List.length_append] at this
      obtain ⟨hsb, hcache1⟩ := pairStep_ok_post cfg src dst errs s hne hf hn hc hok
      have hf1 : (pairStep cfg src dst errs s).2.faults = [] := by rw [hfa, hf]
      have hn1 : NoSym (pairStep cfg src dst errs s).2.fs := hns hn
      rw [hok] at herr ⊢
      obtain ⟨ihf, ihn, ihc, ihs⟩ := ih (idx + 1) errs (pairStep cfg src dst errs s).2
        hf1 hn1 hcache1
        (fun p q hpq a b hab =>
          hdisj p q (List.mem_cons_of_mem _ hpq) a b (List.mem_cons_of_mem _ hab))
        (by
          rw [List.map_cons] at hnd
          exact hnd.of_cons)
        herr
      refine ⟨ihf, ihn, ihc, ?_⟩
      intro a b hab
      rcases List.mem_cons.mp hab with hab | hab
      · injection hab with ha hb
        rw [ha, hb]
        have hfra := cpLsGo_fs_frame cfg tl (idx + 1) errs
          (pairStep cfg src dst errs s).2 src
          (fun a2 b2 hab2 => fun hq =>
            (hdisj a2 b2 (List.mem_cons_of_mem _ hab2) src dst hmemhd) hq.symm)
        have hfrb := cpLsGo_fs_frame cfg tl (idx + 1) errs
          (pairStep cfg src dst errs s).2 dst
          (fun a2 b2 hab2 => by
            rw [List.map_cons] at hnd
            intro hq
            apply (List.nodup_cons.mp hnd).1
            rw [hq]
            exact List.mem_map.mpr ⟨(a2, b2), hab2, rfl⟩)
        exact steadyB_frame hsb hfra hfrb
      · exact ihs a b hab

/-- A batch over pairs that are all steady collects no errors, never
touches the filesystem or the (empty) ledger, and appends exactly one
clone record per pair to the trace — in particular, no bulk copy at
all. -/
theorem cpLsGo_steady (cfg : Cfg) :
    ∀ (pairs : List (Path × Path)) (idx : Nat) (errs : List Path) (s : St),
      s.faults = [] → NoSym s.fs → s.cache = [] →
      (∀ a b, (a, b) ∈ pairs → steadyPair cfg s.fs a b) →
      (cpLsGo cfg pairs idx errs s).2.1 = errs
      ∧ (cpLsGo cfg pairs idx errs s).2.2.trace
          = s.trace ++ pairs.map (fun ab => Op.cloneOp ab.1 ab.2)
      ∧ (cpLsGo cfg pairs idx errs s).2.2.fs = s.fs := by
  intro pairs
  induction pairs with
  | nil =>
    intro idx errs s hf hn hc hst
    exact ⟨rfl, by simp [cpLsGo], rfl⟩
  | cons hd tl ih =>
    intro idx errs s hf hn hc hst
    cases hd with
    | mk src dst =>
      have hps := pairStep_steady cfg src dst errs s hf hn
        (by rw [hc]; rfl) (hst src dst (List.mem_cons_self _ _))
      have hred : (cpLsGo cfg ((src, dst) :: tl) idx errs s).2
          = (cpLsGo cfg tl (idx + 1) (pairStep cfg src dst errs s).1
              (pairStep cfg src dst errs s).2).2 := rfl
      rw [hred, hps]
      dsimp only []
      obtain ⟨ih1, ih2, ih3⟩ := ih (idx + 1) errs
        { s with
          cache := cacheDelete s.cache src,
          clock := s.clock + 1,
          trace := s.trace ++ [Op.cloneOp src dst] }
        hf hn (by dsimp only []; rw [hc]; rfl)
        (fun a b hab => hst a b (List.mem_cons_of_mem _ hab))
      refine ⟨ih1, ?_, ih3⟩
      rw [ih2]
      dsimp only []
      rw [List.map_cons, List.append_assoc]
      rfl

/-- A finite filesystem given by an association list. -/
def fsOfList (l : List (Path × Entry)) : FS := fun p =>
  (l.find? (fun kv => kv.1 == p)).map Prod.snd

/-- A finite filesystem whose entries are all symlink-free is
symlink-free. -/
theorem noSym_fsOfList (l : List (Path × Entry))
    (h : l.all (fun kv => match kv.2 with
      | Entry.symlink _ => false
      | _ => true) = true) : NoSym (fsOfList l) := by
  intro p t hq
  unfold fsOfList at hq
  match hfind : l.find? (fun kv => kv.1 == p) with
  | none =>
    rw [hfind] at hq
    cases hq
  | some kv =>
    rw [hfind] at hq
    dsimp only [Option.map] at hq
    injection hq with hq
    have hb := List.all_eq_true.mp h kv (List.mem_of_find?_eq_some hfind)
    rw [hq] at hb
    dsimp only [] at hb
    exact Bool.noConfusion hb

/-- C6 (amended): over a symlink-free tree whose destination paths are
pairwise distinct and disjoint from the source paths, a first full run
(from an empty ledger, no injected faults) that completes with an empty
failure list leaves every pair steady, so a second full run over the
resulting filesystem again reports no failures and performs zero
invocations of the bulk-copy primitive.  (Without the symlink-freedom
and disjointness provisos the statement fails: see the
counterexample.) -/
theorem second_run_no_bulk_copy (cfg : Cfg) (fs0 : FS) (srcs dsts : List Path)
    (hn : NoSym fs0)
    (hdisj : ∀ pq ∈ srcs.zip dsts, ∀ ab ∈ srcs.zip dsts, pq.2 ≠ ab.1)
    (hnd : ((srcs.zip dsts).map Prod.snd).Nodup)
    (herr1 : (cp_ls cfg srcs dsts ⟨fs0, [], 0, [], []⟩).2.1 = []) :
    (cp_ls cfg srcs dsts
        ⟨(cp_ls cfg srcs dsts ⟨fs0, [], 0, [], []⟩).2.2.fs,
         (cp_ls cfg srcs dsts ⟨fs0, [], 0, [], []⟩).2.2.cache, 0, [], []⟩).2.1 = []
    ∧ ∀ a b, Op.cpOp a b ∉
        (cp_ls cfg srcs dsts
          ⟨(cp_ls cfg srcs dsts ⟨fs0, [], 0, [], []⟩).2.2.fs,
           (cp_ls cfg srcs dsts ⟨fs0, [], 0, [], []⟩).2.2.cache, 0, [], []⟩).2.2.trace := by
  obtain ⟨h1f, h1n, h1c, h1s⟩ := cpLsGo_run1 cfg (srcs.zip dsts) 1 []
    ⟨fs0, [], 0, [], []⟩ rfl hn rfl
    (fun p q hpq a b hab => hdisj (p, q) hpq (a, b) hab) hnd herr1
  have hsteady : ∀ a b, (a, b) ∈ srcs.zip dsts →
      steadyPair cfg (cp_ls cfg srcs dsts ⟨fs0, [], 0, [], []⟩).2.2.fs a b :=
    fun a b hab => steadyB_steadyPair h1n (h1s a b hab)
  obtain ⟨h2e, h2t, _⟩ := cpLsGo_steady cfg (srcs.zip dsts) 1 []
    ⟨(cp_ls cfg srcs dsts ⟨fs0, [], 0, [], []⟩).2.2.fs,
     (cp_ls cfg srcs dsts ⟨fs0, [], 0, [], []⟩).2.2.cache, 0, [], []⟩
    rfl h1n h1c hsteady
  constructor
  · exact h2e
  · intro a b
    show Op.cpOp a b ∉
      (cpLsGo cfg (srcs.zip dsts) 1 []
        ⟨(cp_ls cfg srcs dsts ⟨fs0, [], 0, [], []⟩).2.2.fs,
         (cp_ls cfg srcs dsts ⟨fs0, [], 0, [], []⟩).2.2.cache, 0, [], []⟩).2.2.trace
    rw [h2t]
    intro hmem
    rcases List.mem_append.mp hmem with hmem | hmem
    · exact absurd hmem (List.not_mem_nil _)
    · obtain ⟨⟨x, y⟩, hxy, heq⟩ := List.mem_map.mp hmem
      exact Op.noConfusion heq

/-- The witness tree for the second-run theorem: a source directory
with a file, a subdirectory file, and a bare destination root. -/
def tFS : FS := fsOfList
  [(str "/s", Entry.dir []),
   (str "/s/a", Entry.file [1] 3),
   (str "/s/sub", Entry.dir []),
   (str "/s/sub/b", Entry.file [2] 4),
   (str "/d", Entry.dir [])]

/-- The witness configuration: cap 3, comparison on, full contents. -/
def tCfg : Cfg := ⟨3, true, false⟩

/-- The witness source list. -/
def tSrcs : List Path := [str "/s/a", str "/s/sub/b"]

/-- The witness destination list. -/
def tDsts : List Path := [str "/d/a", str "/d/sub/b"]

/-- Witness for C6 at a concrete input: after a clean first run copying
two files into an empty destination, the second run reports no
failures. -/
theorem second_run_no_bulk_copy_witness :
    (cp_ls tCfg tSrcs tDsts
        ⟨(cp_ls tCfg tSrcs tDsts ⟨tFS, [], 0, [], []⟩).2.2.fs,
         (cp_ls tCfg tSrcs tDsts ⟨tFS, [], 0, [], []⟩).2.2.cache, 0, [], []⟩).2.1 = [] :=
  (second_run_no_bulk_copy tCfg tFS tSrcs tDsts
    (noSym_fsOfList _ (by decide)) (by decide) (by decide) (by decide)).1

/-- The counterexample tree: the source holds a symlink that resolves
into the destination area. -/
def xFS : FS := fsOfList
  [(str "/s", Entry.dir []),
   (str "/s/a", Entry.symlink (str "/d/b")),
   (str "/s/b", Entry.file [2] 0),
   (str "/d", Entry.dir []),
   (str "/d/a", Entry.file [1] 0),
   (str "/d/b", Entry.file [1] 0)]

/-- The counterexample configuration: comparison mode on. -/
def xCfg : Cfg := ⟨5, true, false⟩

/-- The counterexample source list. -/
def xSrcs : List Path := [str "/s/a", str "/s/b"]

/-- The counterexample destination list. -/
def xDsts : List Path := [str "/d/a", str "/d/b"]

/-- The first counterexample run, from a fresh state. -/
def xRun1 := cp_ls xCfg xSrcs xDsts ⟨xFS, [], 0, [], []⟩

/-- The second counterexample run, over the filesystem and ledger the
first run left behind (a fresh process otherwise). -/
def xRun2 := cp_ls xCfg xSrcs xDsts ⟨xRun1.2.2.fs, xRun1.2.2.cache, 0, [], []⟩

/-- C6 is false as stated: the first run completes with no failures and
an empty ledger, every source entry is exactly as it was (the tree is
unchanged, and nothing else runs between the two runs), yet the second
full run invokes the bulk-copy primitive on the pair whose source is a
symlink resolving into the destination area — the first run rewrote the
symlink target via the other pair, so the comparison now fails and the
copy branch is taken. -/
theorem second_run_counterexample :
    xRun1.2.1 = [] ∧ xRun1.2.2.cache = []
    ∧ xRun1.2.2.fs (str "/s") = xFS (str "/s")
    ∧ xRun1.2.2.fs (str "/s/a") = xFS (str "/s/a")
    ∧ xRun1.2.2.fs (str "/s/b") = xFS (str "/s/b")
    ∧ Op.cpOp (str "/s/a") (str "/d/a") ∉ xRun1.2.2.trace
    ∧ Op.cpOp (str "/s/a") (str "/d/a") ∈ xRun2.2.2.trace := by
  decide

end CopyFiles
